import Mathlib

/-!
Verification of the Resonix memory subsystem (`src/resonix/memory` and
`src/resonix/learning`, plus the cognition module holding
`DeviationCorrection`).  JavaScript numbers are modelled as exact
rationals (`ℚ`), timestamps (`Date.now()`) as natural numbers passed in
explicitly, and each JavaScript `Map` as an insertion-ordered association
list.  JavaScript's `x || y` defaulting on falsy values (0, empty string)
is modelled by the explicit `jsOr*` helpers below.
-/

namespace Resonix

/-- JS `a || b` on numbers (0 is falsy). -/
def jsOrNat (a b : Nat) : Nat := if a = 0 then b else a

/-- JS `a || b` on numbers modelled as rationals (0 is falsy). -/
def jsOrQ (a b : ℚ) : ℚ := if a = 0 then b else a

/-- JS `a || b` on strings (the empty string is falsy). -/
def jsOrStr (a b : String) : String := if a = "" then b else a

/-- `Map.get`: first (and, for genuine maps, only) binding of a key. -/
def mapGet {κ α : Type} [DecidableEq κ] (m : List (κ × α)) (k : κ) : Option α :=
  (m.find? (fun p => p.1 = k)).map Prod.snd

/-- `Map.has`. -/
def mapHas {κ α : Type} [DecidableEq κ] (m : List (κ × α)) (k : κ) : Bool :=
  m.any (fun p => p.1 = k)

/-- `Map.set`: replace the binding in place when the key is present
(JS `Map` keeps the original insertion position), else append. -/
def mapSet {κ α : Type} [DecidableEq κ] (m : List (κ × α)) (k : κ) (v : α) :
    List (κ × α) :=
  if mapHas m k then m.map (fun p => if p.1 = k then (k, v) else p)
  else m ++ [(k, v)]

/-- `Map.delete` (just the removal; the JS method also returns a Bool). -/
def mapDelete {κ α : Type} [DecidableEq κ] (m : List (κ × α)) (k : κ) :
    List (κ × α) :=
  m.filter (fun p => ¬ (p.1 = k))

/-- JS `array.slice(-n)` for `n > 0`: the last `n` elements (all of them
when the array is shorter).  JS `slice(-0)` is `slice(0)`, i.e. the whole
array, hence the special case. -/
def sliceLast {α : Type} (l : List α) (n : Nat) : List α :=
  if n = 0 then l else l.drop (l.length - n)

/-! ## SemanticMemory (`src/src/resonix/memory/semantic-memory.ts`) -/

/-- `timeliness` enumeration of a knowledge card. -/
inductive Timeliness : Type
  | latest
  | valid
  | outdated
deriving DecidableEq, Repr

/-- `KnowledgeCard`.  `metadata` is an opaque bag of which only
`metadata?.usageCount` is ever read (by `calculateRetentionWeight`), so it
is modelled by that single optional number. -/
structure KnowledgeCard : Type where
  id : String
  title : String
  domain : String
  keywords : List String
  core_content : String
  sources : List String
  create_time : Nat
  update_time : Nat
  mastery_score : ℚ
  timeliness : Timeliness
  related_knowledge : List String
  version : Nat
  previous_versions : List Nat
  metadata_usageCount : Option ℚ
deriving DecidableEq, Repr

/-- Argument of `store`: `Omit<KnowledgeCard, 'create_time' | 'update_time'
| 'version'>`.  A `previous_versions` member of the argument would be
overwritten by `store` before use, so it is not modelled. -/
structure KnowledgeInput : Type where
  id : String
  title : String
  domain : String
  keywords : List String
  core_content : String
  sources : List String
  mastery_score : ℚ
  timeliness : Timeliness
  related_knowledge : List String
  metadata_usageCount : Option ℚ
deriving DecidableEq, Repr

/-- `Partial<KnowledgeCard>`: every field optional; spread over the
existing card by `applyPatch`. -/
structure KnowledgePatch : Type where
  id : Option String := none
  title : Option String := none
  domain : Option String := none
  keywords : Option (List String) := none
  core_content : Option String := none
  sources : Option (List String) := none
  create_time : Option Nat := none
  update_time : Option Nat := none
  mastery_score : Option ℚ := none
  timeliness : Option Timeliness := none
  related_knowledge : Option (List String) := none
  version : Option Nat := none
  previous_versions : Option (List Nat) := none
  metadata_usageCount : Option (Option ℚ) := none
deriving DecidableEq, Repr

/-- JS object spread `{...existing, ...updates}`. -/
def applyPatch (c : KnowledgeCard) (p : KnowledgePatch) : KnowledgeCard where
  id := p.id.getD c.id
  title := p.title.getD c.title
  domain := p.domain.getD c.domain
  keywords := p.keywords.getD c.keywords
  core_content := p.core_content.getD c.core_content
  sources := p.sources.getD c.sources
  create_time := p.create_time.getD c.create_time
  update_time := p.update_time.getD c.update_time
  mastery_score := p.mastery_score.getD c.mastery_score
  timeliness := p.timeliness.getD c.timeliness
  related_knowledge := p.related_knowledge.getD c.related_knowledge
  version := p.version.getD c.version
  previous_versions := p.previous_versions.getD c.previous_versions
  metadata_usageCount := p.metadata_usageCount.getD c.metadata_usageCount

/-- The `SemanticMemory` class: its configuration, the in-memory cache
(the JS `Map`, which also mirrors `index.json`), and the per-version
snapshot files `{id}_v{version}.json`, modelled as a map keyed by
id and version. -/
structure SemanticMemory : Type where
  enableVersioning : Bool
  maxVersions : Nat
  cache : List (String × KnowledgeCard)
  files : List ((String × Nat) × KnowledgeCard)
deriving DecidableEq, Repr

namespace SemanticMemory

/-- Defaults of the constructor: `enableVersioning = true`,
`maxVersions = 5`, empty stores. -/
def init : SemanticMemory where
  enableVersioning := true
  maxVersions := 5
  cache := []
  files := []

/-- `store(knowledge)`, with `Date.now()` passed in as `now`.  Returns the
updated memory and the card built (the method's return value). -/
def store (s : SemanticMemory) (knowledge : KnowledgeInput) (now : Nat) :
    SemanticMemory × KnowledgeCard :=
  let existing := mapGet s.cache knowledge.id
  let card0 : KnowledgeCard :=
    { id := knowledge.id
      title := knowledge.title
      domain := knowledge.domain
      keywords := knowledge.keywords
      core_content := knowledge.core_content
      sources := knowledge.sources
      create_time :=
        match existing with
        | some e => jsOrNat e.create_time now
        | none => now
      update_time := now
      version :=
        match existing with
        | some e => e.version + 1
        | none => 1
      previous_versions :=
        match existing with
        | some e => e.previous_versions ++ [e.version]
        | none => []
      mastery_score := knowledge.mastery_score
      timeliness := knowledge.timeliness
      related_knowledge := knowledge.related_knowledge
      metadata_usageCount := knowledge.metadata_usageCount }
  let card :=
    { card0 with
      previous_versions :=
        if card0.previous_versions.length > s.maxVersions then
          sliceLast card0.previous_versions s.maxVersions
        else card0.previous_versions }
  let s1 := { s with cache := mapSet s.cache card.id card }
  let s2 :=
    { s1 with
      files :=
        if s1.enableVersioning then mapSet s1.files (card.id, card.version) card
        else s1.files }
  (s2, card)

/-- `update(id, updates)`.  Snapshots the superseded version (when
versioning is on), then writes the patched card under the same key. -/
def update (s : SemanticMemory) (id : String) (updates : KnowledgePatch)
    (now : Nat) : SemanticMemory × Option KnowledgeCard :=
  match mapGet s.cache id with
  | none => (s, none)
  | some existing =>
    let s1 :=
      { s with
        files :=
          if s.enableVersioning then mapSet s.files (id, existing.version) existing
          else s.files }
    let updated : KnowledgeCard :=
      { applyPatch existing updates with
        update_time := now
        version := existing.version + 1
        previous_versions :=
          sliceLast (existing.previous_versions ++ [existing.version]) s.maxVersions }
    ({ s1 with cache := mapSet s1.cache id updated }, some updated)

/-- `get(id)`. -/
def get (s : SemanticMemory) (id : String) : Option KnowledgeCard :=
  mapGet s.cache id

/-- `getVersion(id, version)`: reads the snapshot file directly. -/
def getVersion (s : SemanticMemory) (id : String) (version : Nat) :
    Option KnowledgeCard :=
  mapGet s.files (id, version)

/-- `delete(id)`: drops the live index entry only; snapshot files stay. -/
def delete (s : SemanticMemory) (id : String) : SemanticMemory × Bool :=
  if mapHas s.cache id then ({ s with cache := mapDelete s.cache id }, true)
  else (s, false)

/-- `calculateRetentionWeight(card)`: `0.5 * mastery + timeliness bonus +
min(0.3, 0.01 * usageCount)`. -/
def calculateRetentionWeight (card : KnowledgeCard) : ℚ :=
  let masteryWeight := card.mastery_score * (1 / 2)
  let timelinessWeight : ℚ :=
    match card.timeliness with
    | .latest => 2 / 10
    | .valid => 1 / 10
    | .outdated => 0
  let usageWeight := min (3 / 10) ((card.metadata_usageCount.getD 0) * (1 / 100))
  masteryWeight + timelinessWeight + usageWeight

/-- Loop body of `prune`, iterating over a snapshot of the cache entries
(JS `Map` iteration is safe under deletion of the entry being visited). -/
def pruneGo (threshold : ℚ) :
    List (String × KnowledgeCard) → SemanticMemory → List String →
    SemanticMemory × List String
  | [], s, pruned => (s, pruned)
  | (id, card) :: rest, s, pruned =>
    let weight := calculateRetentionWeight card
    if card.mastery_score ≥ 8 ∧ card.domain ≠ "general" then
      pruneGo threshold rest s pruned
    else if weight < threshold then
      pruneGo threshold rest (s.delete id).1 (pruned ++ [id])
    else
      pruneGo threshold rest s pruned

/-- `prune(threshold)`; call sites use the declared default `0.1`. -/
def prune (s : SemanticMemory) (threshold : ℚ) :
    SemanticMemory × List String :=
  pruneGo threshold s.cache s []

end SemanticMemory

/-! ## ProgramMemory (`src/src/resonix/memory/program-memory.ts`)

Only the strategy store is modelled; the browser-template store is an
independent map that no claim touches. -/

/-- `LearningStrategy['type']`. -/
inductive StrategyType : Type
  | api
  | browser
  | extraction
  | evaluation
deriving DecidableEq, Repr

/-- A strategy's `content` is an opaque `Record<string, any>`.  The code
observes it only through (a) the truthiness of the six keys that
`inferStrategyType` inspects and (b) `extractTags`, which takes the first
five alphabetic tokens of its JSON serialization.  (a) is modelled by six
Booleans; the token list of (b) is carried as the abstract `tagWords`
attribute. -/
structure StrategyContent : Type where
  apiParams : Bool
  endpoint : Bool
  actions : Bool
  urlPatterns : Bool
  extractionRule : Bool
  pattern : Bool
  tagWords : List String
deriving DecidableEq, Repr

/-- `LearningStrategy`. -/
structure LearningStrategy : Type where
  id : String
  name : String
  type : StrategyType
  content : StrategyContent
  successRate : ℚ
  usageCount : Nat
  lastUsed : Nat
  createdAt : Nat
  updatedAt : Nat
  tags : List String
  isOptimal : Bool
deriving DecidableEq, Repr

/-- The `ProgramMemory` class: the strategy `Map`, keyed by strategy id in
insertion order. -/
structure ProgramMemory : Type where
  strategies : List (String × LearningStrategy)
deriving DecidableEq, Repr

namespace ProgramMemory

/-- Fresh instance over an empty storage directory. -/
def init : ProgramMemory where
  strategies := []

/-- `inferStrategyType(content)`: keyed on which members are truthy. -/
def inferStrategyType (content : StrategyContent) : StrategyType :=
  if content.apiParams || content.endpoint then .api
  else if content.actions || content.urlPatterns then .browser
  else if content.extractionRule || content.pattern then .extraction
  else .evaluation

/-- `extractTags(content)`: the source matches `/[a-z]+(?:\d+\.\d+)?/g`
over `JSON.stringify(content)` and keeps the first five hits; that token
list is the `tagWords` attribute of the opaque content model. -/
def extractTags (content : StrategyContent) : List String :=
  content.tagWords.take 5

/-- `Array.from(map.values()).find(s => s.name === name)`. -/
def findByName (pm : ProgramMemory) (name : String) : Option LearningStrategy :=
  (pm.strategies.map Prod.snd).find? (fun s => s.name = name)

/-- `storeStrategy(name, content)`; `Date.now()` passed as `now`. -/
def storeStrategy (pm : ProgramMemory) (name : String)
    (content : StrategyContent) (now : Nat) : ProgramMemory × LearningStrategy :=
  let existing := pm.findByName name
  let strategy : LearningStrategy :=
    { id :=
        match existing with
        | some e => jsOrStr e.id ("strategy_" ++ toString now)
        | none => "strategy_" ++ toString now
      name := name
      type := inferStrategyType content
      content := content
      successRate :=
        match existing with
        | some e => jsOrQ e.successRate (1 / 2)
        | none => 1 / 2
      usageCount :=
        match existing with
        | some e => jsOrNat e.usageCount 0
        | none => 0
      lastUsed :=
        match existing with
        | some e => jsOrNat e.lastUsed now
        | none => now
      createdAt :=
        match existing with
        | some e => jsOrNat e.createdAt now
        | none => now
      updatedAt := now
      tags := extractTags content
      isOptimal := false }
  ({ strategies := mapSet pm.strategies strategy.id strategy }, strategy)

/-- `getStrategy(name)`. -/
def getStrategy (pm : ProgramMemory) (name : String) : Option LearningStrategy :=
  pm.findByName name

/-- `updateStrategyEffect(name, success)`: incremental weighted average of
`successRate`; silent no-op when the name is unknown. -/
def updateStrategyEffect (pm : ProgramMemory) (name : String) (success : Bool)
    (now : Nat) : ProgramMemory :=
  match pm.findByName name with
  | none => pm
  | some strategy =>
    let newUsageCount := strategy.usageCount + 1
    let successDelta : ℚ := if success then 1 else 0
    let newSuccessRate :=
      (strategy.successRate * strategy.usageCount + successDelta) / newUsageCount
    let s :=
      { strategy with
        successRate := newSuccessRate
        usageCount := newUsageCount
        lastUsed := now
        updatedAt := now }
    { strategies := mapSet pm.strategies s.id s }

/-- `markOptimal(name)`: clears `isOptimal` on every strategy of the same
type, then sets it on the target. -/
def markOptimal (pm : ProgramMemory) (name : String) : ProgramMemory :=
  match pm.findByName name with
  | none => pm
  | some strategy =>
    let cleared := pm.strategies.map (fun p =>
      if p.2.type = strategy.type ∧ p.2.isOptimal then
        (p.1, { p.2 with isOptimal := false })
      else p)
    { strategies := mapSet cleared strategy.id { strategy with isOptimal := true } }

/-- `Math.max(1, Math.ceil(strategies.length * 0.2))`: with the product
taken exactly, `⌈n * 0.2⌉ = ⌈n / 5⌉ = (n + 4) / 5` in natural-number
division. -/
def optimalCount (n : Nat) : Nat :=
  max 1 ((n + 4) / 5)

/-- One insertion step of the stable descending sort JS
`sort((a, b) => b.successRate - a.successRate)` performs: a later element
is placed after every earlier element whose rate is at least as large. -/
def insertByRate : List LearningStrategy → LearningStrategy → List LearningStrategy
  | [], x => [x]
  | y :: rest, x =>
    if y.successRate < x.successRate then x :: y :: rest
    else y :: insertByRate rest x

/-- Stable sort by `successRate` descending. -/
def sortByRateDesc (l : List LearningStrategy) : List LearningStrategy :=
  l.foldl insertByRate []

/-- The promoted/demoted/removed name lists `iterateStrategies` returns. -/
structure IterOutcome : Type where
  promoted : List String
  demoted : List String
  removed : List String
deriving DecidableEq, Repr

/-- Inner loop of `iterateStrategies` over one type group, already sorted;
`i` is the loop index.  Decisions read the snapshot element (in the source
the array holds the very objects the map holds, and each object is visited
exactly once per run, so snapshot and live fields agree). -/
def iterGroupGo (oc : Nat) :
    Nat → List LearningStrategy → List (String × LearningStrategy) →
    IterOutcome → List (String × LearningStrategy) × IterOutcome
  | _, [], strategies, out => (strategies, out)
  | i, s :: rest, strategies, out =>
    let shouldBeOptimal := i < oc ∧ s.successRate > 3 / 10
    let r1 :=
      if shouldBeOptimal ∧ s.isOptimal = false then
        (mapSet strategies s.id { s with isOptimal := true },
         { out with promoted := out.promoted ++ [s.name] })
      else if ¬ shouldBeOptimal ∧ s.isOptimal = true then
        (mapSet strategies s.id { s with isOptimal := false },
         { out with demoted := out.demoted ++ [s.name] })
      else (strategies, out)
    let r2 :=
      if s.successRate < 1 / 10 ∧ s.usageCount > 10 then
        (mapDelete r1.1 s.id, { r1.2 with removed := r1.2.removed ++ [s.name] })
      else r1
    iterGroupGo oc (i + 1) rest r2.1 r2.2

/-- The distinct strategy types in first-occurrence order (the key order
of the `byType` JS `Map`). -/
def typesInOrder (l : List LearningStrategy) : List StrategyType :=
  (l.map (·.type)).foldl (fun acc t => if t ∈ acc then acc else acc ++ [t]) []

/-- `iterateStrategies()`: groups a snapshot of the strategies by type,
stably sorts each group by success rate descending, promotes the top
`max(1, ceil(20%))` with rate above 0.3, demotes other optimal ones, and
removes strategies with rate below 0.1 after more than 10 uses. -/
def iterateStrategies (pm : ProgramMemory) :
    ProgramMemory × IterOutcome :=
  let values := pm.strategies.map Prod.snd
  let groups := (typesInOrder values).map (fun t => values.filter (fun s => s.type = t))
  let r := groups.foldl
    (fun acc group =>
      iterGroupGo (optimalCount group.length) 0 (sortByRateDesc group) acc.1 acc.2)
    (pm.strategies, ⟨[], [], []⟩)
  ({ strategies := r.1 }, r.2)

end ProgramMemory

/-! ## WorkingMemory (`src/src/resonix/memory/working-memory.ts`)

Only the TTL item store is modelled (the learning-progress map is a
separate structure no claim touches).  `content` is opaque. -/

/-- `WorkingMemoryItem['type']`. -/
inductive WMType : Type
  | raw_data
  | temp_param
  | unchecked_content
  | learning_progress
deriving DecidableEq, Repr

/-- `WorkingMemoryItem`; the opaque `content` payload is a string. -/
structure WorkingMemoryItem : Type where
  id : String
  type : WMType
  content : String
  createdAt : Nat
  expiresAt : Nat
deriving DecidableEq, Repr

/-- The `WorkingMemory` item map. -/
structure WorkingMemory : Type where
  items : List (String × WorkingMemoryItem)
deriving DecidableEq, Repr

namespace WorkingMemory

/-- `get(id)` with `Date.now()` passed as `now`: returns the unexpired
item, or deletes an expired one on read (lazy expiry) and returns null. -/
def get (wm : WorkingMemory) (id : String) (now : Nat) :
    Option WorkingMemoryItem × WorkingMemory :=
  match mapGet wm.items id with
  | none => (none, wm)
  | some item =>
    if now > item.expiresAt then
      (none, { wm with items := mapDelete wm.items id })
    else
      (some item, wm)

end WorkingMemory

/-! ## EpisodicMemory (`src/src/resonix/memory/working-memory.ts` bundle,
second file): only `log` is needed (DeviationCorrection calls it). -/

/-- `EpisodicEvent`; `metadata` is opaque and not modelled. -/
structure EpisodicEvent : Type where
  id : String
  event_type : String
  content : String
  timestamp : Nat
deriving DecidableEq, Repr

/-- The in-memory event cache of `EpisodicMemory`. -/
structure EpisodicMemory : Type where
  memoryCache : List EpisodicEvent
deriving DecidableEq, Repr

namespace EpisodicMemory

/-- `log(event)`: assigns `id = ep_${Date.now()}_${random}` (the random
suffix is an oracle argument) and timestamp, and appends to the cache. -/
def log (mem : EpisodicMemory) (event_type content : String) (now : Nat)
    (rand : String) : EpisodicMemory × EpisodicEvent :=
  let fullEvent : EpisodicEvent :=
    { id := "ep_" ++ toString now ++ "_" ++ rand
      event_type := event_type
      content := content
      timestamp := now }
  ({ memoryCache := mem.memoryCache ++ [fullEvent] }, fullEvent)

end EpisodicMemory

/-! ## String helpers shared by PathPlanner and DeviationCorrection -/

/-- JS `haystack.includes(needle)`. -/
def strIncludes (hay needle : String) : Bool :=
  decide (needle.toList <:+: hay.toList)

theorem length_dropWhile_le {α : Type} (p : α → Bool) (l : List α) :
    (l.dropWhile p).length ≤ l.length := by
  induction l with
  | nil => simp [List.dropWhile]
  | cons a l ih =>
    rw [List.dropWhile]
    split
    · exact Nat.le_succ_of_le ih
    · simp

/-- JS `replace(/\s+/g, '-')` on a character list: every maximal
whitespace run becomes a single dash. -/
def collapseWs : List Char → List Char
  | [] => []
  | c :: rest =>
    if c.isWhitespace then
      '-' :: collapseWs (rest.dropWhile Char.isWhitespace)
    else
      c :: collapseWs rest
termination_by l => l.length
decreasing_by
  · have h := length_dropWhile_le Char.isWhitespace rest
    simpa using Nat.lt_succ_of_le h
  · simp

/-- Separator class of `extractKeywords`: `[\s,\-_]`. -/
def isSepChar (c : Char) : Bool :=
  c.isWhitespace || c = ',' || c = '-' || c = '_'

/-- JS `split(/[\s,\-_]+/)`: runs of separators split, with empty pieces
only at the ends (a leading or trailing separator run yields one). -/
def splitSepsGo (cur : List Char) : List Char → List (List Char)
  | [] => [cur.reverse]
  | c :: rest =>
    if isSepChar c then
      cur.reverse :: splitSepsGo [] (rest.dropWhile isSepChar)
    else
      splitSepsGo (c :: cur) rest
termination_by l => l.length
decreasing_by
  · have h := length_dropWhile_le isSepChar rest
    simpa using Nat.lt_succ_of_le h
  · simp

/-! ## PathPlanner (`src/src/resonix/learning/path-planner.ts`) -/

/-- `LearningStep['type']`. -/
inductive StepType : Type
  | brewapi_basic
  | brewapi_advanced
  | browser_documentation
  | browser_practical
  | validation
deriving DecidableEq, Repr

/-- String form of a step type (used in `step_type_${step.type}`). -/
def StepType.str : StepType → String
  | .brewapi_basic => "brewapi_basic"
  | .brewapi_advanced => "brewapi_advanced"
  | .browser_documentation => "browser_documentation"
  | .browser_practical => "browser_practical"
  | .validation => "validation"

/-- `LearningStep['priority']`. -/
inductive StepPriority : Type
  | high
  | medium
  | low
deriving DecidableEq, Repr

/-- `LearningStep['status']` (plus the transient `in_progress` the loop
assigns). -/
inductive StepStatus : Type
  | pending
  | in_progress
  | completed
  | failed
  | skipped
deriving DecidableEq, Repr

/-- `LearningPath['status']`. -/
inductive PathStatus : Type
  | pending
  | in_progress
  | completed
  | failed
deriving DecidableEq, Repr

/-- The step `params` bag: of its members the execution path reads
`query` (BrewAPI steps), `topic` and `sources` (browser steps).  The
model keeps exactly those; a missing member of the JS bag corresponds to
an arbitrary value here, which no claim observes. -/
structure StepParams : Type where
  query : String
  topic : String
  sources : List String
deriving DecidableEq, Repr

/-- A step result as produced by the three `execute*Step` stubs:
optional `content`, optional `source`, optional `sources` list. -/
structure StepResult : Type where
  content : Option String
  source : Option String
  sources : Option (List String)
deriving DecidableEq, Repr

/-- `LearningStep`. -/
structure LearningStep : Type where
  id : String
  type : StepType
  priority : StepPriority
  status : StepStatus
  params : StepParams
  result : Option StepResult
  error : Option String
deriving DecidableEq, Repr

/-- `LearningPath`. -/
structure LearningPath : Type where
  id : String
  demandId : String
  topic : String
  targetMastery : ℚ
  steps : List LearningStep
  status : PathStatus
  createdAt : Nat
  completedAt : Option Nat
deriving DecidableEq, Repr

/-- `PathExecutionResult`. -/
structure PathExecutionResult : Type where
  pathId : String
  success : Bool
  completedSteps : Nat
  totalSteps : Nat
  knowledgeId : Option String
  error : Option String
deriving DecidableEq, Repr

namespace PathPlanner

/-- `executeStep(step)`: dispatches on the step type.  The three
`execute*Step` bodies are success-returning stubs (they never throw for
the five declared step types), so the result is a pure function of the
step.  The `getOptimalStrategy` lookup only feeds `defaultParams`, which
the spread `{...defaultParams, ...step.params}` overrides for every
member the stubs read, so it does not influence the result. -/
def executeStep (step : LearningStep) : StepResult :=
  match step.type with
  | .brewapi_basic | .brewapi_advanced =>
    { content := some ("Learning content for " ++ step.params.query)
      source := some "brewapi"
      sources := none }
  | .browser_documentation | .browser_practical =>
    { content := some ("Browser learning content for " ++ step.params.topic)
      source := none
      sources := some step.params.sources }
  | .validation =>
    { content := none, source := none, sources := none }

/-- Loop body of `executePath` over the steps: already
completed/skipped steps are left alone; every other step is executed
(always successfully, see `executeStep`), marked completed, and a success
is recorded against the `step_type_*` strategy. -/
def execSteps (pm : ProgramMemory) (now : Nat) :
    List LearningStep → ProgramMemory × List LearningStep
  | [] => (pm, [])
  | step :: rest =>
    if step.status = .completed ∨ step.status = .skipped then
      let r := execSteps pm now rest
      (r.1, step :: r.2)
    else
      let result := executeStep step
      let step1 := { step with status := .completed, result := some result }
      let pm1 := pm.updateStrategyEffect ("step_type_" ++ step.type.str) true now
      let r := execSteps pm1 now rest
      (r.1, step1 :: r.2)

/-- `createKnowledgeCard(path)` body: concatenate the step result
contents (each followed by a blank line, trimmed at the end), collect the
sources, and store a new card with `mastery_score = 6` and
`timeliness = 'latest'`. -/
def combinedContent (steps : List LearningStep) : String :=
  (steps.foldl (fun acc step =>
    match step.result with
    | some r =>
      match r.content with
      | some c => if c = "" then acc else acc ++ c ++ "\n\n"
      | none => acc
    | none => acc) "").trim

/-- Source collection of `createKnowledgeCard`: `result?.source` pushes
one entry, `result?.sources` pushes the whole list (a JS array is truthy
even when empty). -/
def collectSources (steps : List LearningStep) : List String :=
  steps.foldl (fun acc step =>
    match step.result with
    | none => acc
    | some r =>
      let acc1 :=
        match r.source with
        | some s => if s = "" then acc else acc ++ [s]
        | none => acc
      match r.sources with
      | some l => acc1 ++ l
      | none => acc1) []

/-- `[...new Set(sources)]`: first-occurrence deduplication. -/
def dedupFirst (l : List String) : List String :=
  l.foldl (fun acc s => if s ∈ acc then acc else acc ++ [s]) []

/-- `path.topic.toLowerCase().replace(/\s+/g, '-')`. -/
def slugify (topic : String) : String :=
  String.mk (collapseWs topic.toLower.toList)

/-- `extractDomain(topic)`: first of the three domain keyword groups with
a member contained in the lowercased topic, else "general". -/
def extractDomain (topic : String) : String :=
  let domainKeywords : List (String × List String) :=
    [("前端", ["react", "vue", "angular", "javascript", "typescript", "css", "html"]),
     ("后端", ["node", "python", "java", "go", "rust", "api", "database"]),
     ("AI", ["gpt", "llm", "machine learning", "deep learning", "ai"])]
  let lowerTopic := topic.toLower
  match domainKeywords.find? (fun p => p.2.any (fun k => strIncludes lowerTopic k)) with
  | some p => p.1
  | none => "general"

/-- `extractKeywords(topic)`: split on `[\s,\-_]+`, keep words longer
than 2, take 5. -/
def extractKeywords (topic : String) : List String :=
  (((splitSepsGo [] topic.toList).map String.mk).filter
    (fun w => w.length > 2)).take 5

/-- `createKnowledgeCard(path)`: builds and stores the card, returning
its id. -/
def createKnowledgeCard (sm : SemanticMemory) (path : LearningPath)
    (now : Nat) : SemanticMemory × String :=
  let knowledgeId := "kn_" ++ slugify path.topic ++ "_" ++ toString now
  let input : KnowledgeInput :=
    { id := knowledgeId
      title := path.topic
      domain := extractDomain path.topic
      keywords := extractKeywords path.topic
      core_content := combinedContent path.steps
      sources := dedupFirst (collectSources path.steps)
      mastery_score := 6
      timeliness := .latest
      related_knowledge := []
      metadata_usageCount := none }
  let (sm1, _) := sm.store input now
  (sm1, knowledgeId)

/-- `executePath(path)`: runs the steps, computes the final path status
(`completed` if all steps completed, `in_progress` if some, `failed` if
none), and builds the `PathExecutionResult` — creating and storing a
knowledge card only when the path status is `completed`. -/
def executePath (pm : ProgramMemory) (sm : SemanticMemory)
    (path : LearningPath) (now : Nat) :
    ProgramMemory × SemanticMemory × LearningPath × PathExecutionResult :=
  let (pm1, steps1) := execSteps pm now path.steps
  let completedSteps := (steps1.filter (fun s => s.status = .completed)).length
  let allCompleted := completedSteps = steps1.length
  let status : PathStatus :=
    if allCompleted then .completed
    else if completedSteps > 0 then .in_progress
    else .failed
  let path1 :=
    { path with
      steps := steps1
      status := status
      completedAt := if status = .completed then some now else path.completedAt }
  let (sm1, knowledgeId) :=
    if status = .completed then
      let (sm1, kid) := createKnowledgeCard sm path1 now
      (sm1, some kid)
    else (sm, none)
  (pm1, sm1, path1,
    { pathId := path1.id
      success := status = .completed
      completedSteps := completedSteps
      totalSteps := steps1.length
      knowledgeId := knowledgeId
      error := if status = .failed then some "关键步骤执行失败" else none })

end PathPlanner

/-! ## DeviationCorrection (cognition module, `src/unnamed/part_021`) -/

/-- `DeviationRecord['type']`. -/
inductive DevType : Type
  | factual
  | completeness
  | timeliness
  | accuracy
deriving DecidableEq, Repr

/-- String form of a deviation type (used in the logged event content). -/
def DevType.str : DevType → String
  | .factual => "factual"
  | .completeness => "completeness"
  | .timeliness => "timeliness"
  | .accuracy => "accuracy"

/-- `DeviationRecord['severity']`. -/
inductive DevSeverity : Type
  | high
  | medium
  | low
deriving DecidableEq, Repr

/-- `DeviationRecord['status']`. -/
inductive DevStatus : Type
  | detected
  | verifying
  | corrected
  | dismissed
deriving DecidableEq, Repr

/-- `DeviationRecord`. -/
structure DeviationRecord : Type where
  id : String
  knowledgeId : String
  type : DevType
  severity : DevSeverity
  description : String
  detectedAt : Nat
  sources : List String
  status : DevStatus
deriving DecidableEq, Repr

namespace DeviationCorrection

/-- The "error-like" gate of `detectFromUserFeedback`:
`/错误|不对|有问题|遗漏/i.test(feedback)` — four Chinese keywords (the
case-insensitive flag has no effect on them). -/
def errorPattern (feedback : String) : Bool :=
  strIncludes feedback "错误" || strIncludes feedback "不对" ||
  strIncludes feedback "有问题" || strIncludes feedback "遗漏"

/-- `classifyDeviation(feedback)`.  The timeliness line of the source,
`if (/过时|老|i.test(feedback)) return 'timeliness';`, is an unterminated
regex literal (a syntax slip); it is modelled as its evident intent
`/过时|老/i.test(feedback)`. -/
def classifyDeviation (feedback : String) : DevType :=
  if strIncludes feedback "遗漏" || strIncludes feedback "不全" ||
      strIncludes feedback "少" then .completeness
  else if strIncludes feedback "过时" || strIncludes feedback "老" then .timeliness
  else if strIncludes feedback "错误" || strIncludes feedback "不对" ||
      strIncludes feedback "假" then .factual
  else .accuracy

/-- `assessSeverity(feedback)`. -/
def assessSeverity (feedback : String) : DevSeverity :=
  if strIncludes feedback "严重" || strIncludes feedback "重大" ||
      strIncludes feedback "完全错误" then .high
  else if strIncludes feedback "轻微" || strIncludes feedback "有点" ||
      strIncludes feedback "不太" then .low
  else .medium

/-- Character class `[一-龥a-zA-Z0-9]` of
`extractRelatedKnowledge`. -/
def cjkOrAlnum (c : Char) : Bool :=
  (0x4e00 ≤ c.toNat && c.toNat ≤ 0x9fa5) || c.isAlpha || c.isDigit

/-- Regex search `/(?:关于|关于)([一-龥a-zA-Z0-9]+)/`: at each
position try to match `关于` followed by at least one class character
(capturing the maximal run); on failure advance one position. -/
def extractAfterGuanyu : List Char → Option String
  | [] => none
  | c :: rest =>
    if c = '关' then
      match rest with
      | '于' :: rest2 =>
        let run := rest2.takeWhile cjkOrAlnum
        if run.isEmpty then extractAfterGuanyu rest else some (String.mk run)
      | _ => extractAfterGuanyu rest
    else extractAfterGuanyu rest

/-- `extractRelatedKnowledge(feedback)`. -/
def extractRelatedKnowledge (feedback : String) : String :=
  match extractAfterGuanyu feedback.toList with
  | some s => s
  | none => "unknown"

/-- The state `detectFromUserFeedback` touches: the `activeDeviations`
map and the episodic memory it logs to. -/
structure State : Type where
  episodicMemory : EpisodicMemory
  activeDeviations : List (String × DeviationRecord)
deriving DecidableEq, Repr

/-- `detectFromUserFeedback(feedback, relatedKnowledgeId?)`:
returns null unless the error-like pattern matches; otherwise builds a
`detected` record, registers it, and logs a `deviation_detected`
EpisodicEvent (the event id's random suffix is the oracle `rand`). -/
def detectFromUserFeedback (st : State) (feedback : String)
    (relatedKnowledgeId : Option String) (now : Nat) (rand : String) :
    State × Option DeviationRecord :=
  if errorPattern feedback = false then (st, none)
  else
    let deviation : DeviationRecord :=
      { id := "dev_" ++ toString now
        knowledgeId :=
          jsOrStr (relatedKnowledgeId.getD "") (extractRelatedKnowledge feedback)
        type := classifyDeviation feedback
        severity := assessSeverity feedback
        description := feedback
        detectedAt := now
        sources := []
        status := .detected }
    let active := mapSet st.activeDeviations deviation.id deviation
    let (em, _) := st.episodicMemory.log "deviation_detected"
      ("检测到认知偏差: " ++ deviation.type.str) now rand
    ({ episodicMemory := em, activeDeviations := active }, some deviation)

end DeviationCorrection

/-! ## Auxiliary notions used in the statements and proofs -/

/-- Per-step effect of the `executePath` loop on the step itself (the
loop's effect on the step list is `map stepExecF`, independent of the
program-memory side effects). -/
def PathPlanner.stepExecF (step : LearningStep) : LearningStep :=
  if step.status = .completed ∨ step.status = .skipped then step
  else { step with status := .completed, result := some (PathPlanner.executeStep step) }

/-- The retention condition of `prune`: a card is dropped when it is not
protected (mastery at least 8 outside "general") and its weight is below
threshold. -/
def dropCard (threshold : ℚ) (p : String × KnowledgeCard) : Bool :=
  ¬(p.2.mastery_score ≥ 8 ∧ p.2.domain ≠ "general") ∧
    SemanticMemory.calculateRetentionWeight p.2 < threshold

namespace ProgramMemory

/-- The removal condition of `iterateStrategies`. -/
def remCond (s : LearningStrategy) : Prop :=
  s.successRate < 1 / 10 ∧ s.usageCount > 10

instance (s : LearningStrategy) : Decidable (remCond s) := by
  unfold remCond; infer_instance

/-- The flag assignment `iterateStrategies` performs on a sorted group:
position `i` gets `isOptimal = (i < oc ∧ successRate > 0.3)`. -/
def setFlags (oc : Nat) : Nat → List LearningStrategy → List LearningStrategy
  | _, [] => []
  | i, s :: rest =>
    { s with isOptimal := decide (i < oc ∧ s.successRate > 3 / 10) } ::
      setFlags oc (i + 1) rest

/-- Write a list of strategies into the map, each under its own id. -/
def setEntries (st : List (String × LearningStrategy))
    (upd : List LearningStrategy) : List (String × LearningStrategy) :=
  upd.foldl (fun st s => mapSet st s.id s) st

/-- Replace a strategy by the member of `upd` carrying the same id, when
there is one. -/
def replaceById (upd : List LearningStrategy) (s : LearningStrategy) :
    LearningStrategy :=
  match upd.find? (fun u => u.id = s.id) with
  | some u => u
  | none => s

end ProgramMemory

/-! ## Concrete fixtures for witnesses and counterexamples -/

/-- A content bag with only `endpoint` truthy (the shape of
`{endpoint: "/x"}`). -/
def endpointContent : StrategyContent :=
  { apiParams := false, endpoint := true, actions := false,
    urlPatterns := false, extractionRule := false, pattern := false,
    tagWords := ["endpoint"] }

/-- A strategy fixture builder for the iteration scenarios. -/
def mkEvalStrategy (id name : String) (r : ℚ) (u : Nat) (opt : Bool) : LearningStrategy :=
  { id := id
    name := name
    type := .evaluation
    content := endpointContent
    successRate := r
    usageCount := u
    lastUsed := 1
    createdAt := 1
    updatedAt := 1
    tags := []
    isOptimal := opt }

/-- Six evaluation strategies: two strong, four weak enough to be removed
by the first iteration sweep. -/
def iterFixture : ProgramMemory :=
  { strategies :=
      [("1", mkEvalStrategy "1" "n1" (9 / 10) 1 false),
       ("2", mkEvalStrategy "2" "n2" (8 / 10) 1 false),
       ("3", mkEvalStrategy "3" "n3" (5 / 100) 11 false),
       ("4", mkEvalStrategy "4" "n4" (5 / 100) 11 false),
       ("5", mkEvalStrategy "5" "n5" (5 / 100) 11 false),
       ("6", mkEvalStrategy "6" "n6" (5 / 100) 11 false)] }

/-- The store after the first iteration over `iterFixture`: the four weak
strategies removed, the two strong ones promoted.  With only two
evaluation strategies left, `optimalCount 2 = 1`, so the next run demotes
the runner-up. -/
def iterAfter1 : ProgramMemory :=
  { strategies :=
      [("1", mkEvalStrategy "1" "n1" (9 / 10) 1 true),
       ("2", mkEvalStrategy "2" "n2" (8 / 10) 1 true)] }

/-- …and after the second iteration: `"n2"` demoted. -/
def iterAfter2 : ProgramMemory :=
  { strategies :=
      [("1", mkEvalStrategy "1" "n1" (9 / 10) 1 true),
       ("2", mkEvalStrategy "2" "n2" (8 / 10) 1 false)] }

/-- Two strong evaluation strategies: a stable set the iteration sweep
never removes. -/
def idemFixture : ProgramMemory :=
  { strategies :=
      [("1", mkEvalStrategy "1" "n1" (9 / 10) 1 false),
       ("2", mkEvalStrategy "2" "n2" (8 / 10) 1 false)] }

/-- A program memory holding one optimal api strategy whose falsy
`successRate`/`lastUsed`/`createdAt` fields exercise the `||` defaulting
of `storeStrategy`. -/
def storeFixture : ProgramMemory :=
  { strategies :=
      [("strategy_1",
        { id := "strategy_1"
          name := "s1"
          type := .api
          content := endpointContent
          successRate := 0
          usageCount := 2
          lastUsed := 0
          createdAt := 0
          updatedAt := 5
          tags := []
          isOptimal := true })] }

/-- A pending validation step. -/
def pendingStep : LearningStep :=
  { id := "step_d_validation"
    type := .validation
    priority := .high
    status := .pending
    params := { query := "react", topic := "react", sources := [] }
    result := none
    error := none }

/-- A path with one pre-skipped and one pending step: it finishes with
partial completion (1 of 2). -/
def partialPath : LearningPath :=
  { id := "path_d_1"
    demandId := "d"
    topic := "react"
    targetMastery := 8
    steps := [{ pendingStep with id := "step_d_basic", status := .skipped }, pendingStep]
    status := .pending
    createdAt := 0
    completedAt := none }

/-- A path with a single pending step: it finishes fully completed. -/
def fullPath : LearningPath :=
  { partialPath with id := "path_d_2", steps := [pendingStep] }

/-- A protected card: mastery 9 in a non-"general" domain, yet with the
lowest possible timeliness/usage contribution. -/
def protectedCard : KnowledgeCard :=
  { id := "hi"
    title := "t"
    domain := "ai"
    keywords := []
    core_content := "c"
    sources := []
    create_time := 1
    update_time := 1
    mastery_score := 9
    timeliness := .outdated
    related_knowledge := []
    version := 1
    previous_versions := []
    metadata_usageCount := none }

/-- The same strong card in the "general" domain: not protected. -/
def generalCard : KnowledgeCard :=
  { protectedCard with id := "lo", domain := "general" }

/-- A two-card semantic memory for the prune witness. -/
def pruneFixture : SemanticMemory :=
  { enableVersioning := true
    maxVersions := 5
    cache := [("hi", protectedCard), ("lo", generalCard)]
    files := [] }

/-- The card input of the store scenario (`{id:"k1", domain:"ai",
mastery_score:m, timeliness:"valid", ...}`). -/
def k1Input (m : ℚ) : KnowledgeInput :=
  { id := "k1"
    title := "t"
    domain := "ai"
    keywords := []
    core_content := "c"
    sources := []
    mastery_score := m
    timeliness := .valid
    related_knowledge := []
    metadata_usageCount := none }

/-- The single item of `wmFixture`, expiring at time 1000. -/
def wmItem : WorkingMemoryItem :=
  { id := "wm_1"
    type := .raw_data
    content := "x"
    createdAt := 0
    expiresAt := 1000 }

/-- A working-memory fixture holding just `wmItem`. -/
def wmFixture : WorkingMemory :=
  { items := [("wm_1", wmItem)] }

/-- A deviation-correction state with empty logs. -/
def emptyDeviationState : DeviationCorrection.State :=
  { episodicMemory := { memoryCache := [] }
    activeDeviations := [] }

/-- An api strategy with no falsy field. -/
def mkApiS1 : LearningStrategy :=
  { id := "strategy_1"
    name := "s1"
    type := .api
    content := endpointContent
    successRate := 7 / 10
    usageCount := 2
    lastUsed := 4
    createdAt := 3
    updatedAt := 5
    tags := []
    isOptimal := true }

/-- A well-formed counterpart of `storeFixture`: every falsy-sensitive
field nonzero. -/
def storeFixtureOk : ProgramMemory :=
  { strategies := [("strategy_1", mkApiS1)] }

/-- The semantic memory after storing `k1` (mastery 5) at time 1000. -/
def smK1 : SemanticMemory := (SemanticMemory.init.store (k1Input 5) 1000).1

/-- The card that first store built. -/
def cardK1 : KnowledgeCard := (SemanticMemory.init.store (k1Input 5) 1000).2

/-- A one-field patch raising the mastery score. -/
def masteryPatch : KnowledgePatch := { mastery_score := some 9 }

/-- Program memory after `storeStrategy("s1", {endpoint:"/x"})`. -/
def pmS1 : ProgramMemory := (ProgramMemory.init.storeStrategy "s1" endpointContent 100).1

/-- …after one failure report. -/
def pmU1 : ProgramMemory := pmS1.updateStrategyEffect "s1" false 101

/-- …after two failure reports. -/
def pmU2 : ProgramMemory := pmU1.updateStrategyEffect "s1" false 102

/-- …after three failure reports. -/
def pmU3 : ProgramMemory := pmU2.updateStrategyEffect "s1" false 103

/-! ## General lemmas about the map model -/

section MapLemmas

variable {κ α : Type} [DecidableEq κ]

theorem mapGet_eq_some_of_mem {m : List (κ × α)} {k : κ} {v : α}
    (hnd : (m.map Prod.fst).Nodup) (hmem : (k, v) ∈ m) : mapGet m k = some v := by
  induction m with
  | nil => cases hmem
  | cons p m ih =>
    simp only [List.map_cons, List.nodup_cons] at hnd
    rcases List.mem_cons.mp hmem with h | h
    · subst h
      simp [mapGet]
    · by_cases hk : p.1 = k
      · exact absurd (hk ▸ List.mem_map.mpr ⟨(k, v), h, rfl⟩) hnd.1
      · simpa [mapGet, List.find?_cons_of_neg, hk] using ih hnd.2 h

theorem mem_of_mapGet_eq_some {m : List (κ × α)} {k : κ} {v : α}
    (h : mapGet m k = some v) : (k, v) ∈ m := by
  simp only [mapGet, Option.map_eq_some'] at h
  obtain ⟨p, hfind, hsnd⟩ := h
  have hmem := List.mem_of_find?_eq_some hfind
  have hkey := List.find?_some hfind
  simp only [decide_eq_true_eq] at hkey
  have : p = (k, v) := by
    cases p
    simp_all
  exact this ▸ hmem

theorem mapGet_eq_none_iff {m : List (κ × α)} {k : κ} :
    mapGet m k = none ↔ ∀ p ∈ m, p.1 ≠ k := by
  simp [mapGet, List.find?_eq_none]

theorem key_inj {m : List (κ × α)} {k : κ} {v w : α}
    (hnd : (m.map Prod.fst).Nodup) (hv : (k, v) ∈ m) (hw : (k, w) ∈ m) : v = w := by
  have h1 := mapGet_eq_some_of_mem hnd hv
  have h2 := mapGet_eq_some_of_mem hnd hw
  rw [h1] at h2
  exact Option.some.inj h2

theorem mapHas_iff {m : List (κ × α)} {k : κ} :
    mapHas m k = true ↔ ∃ p ∈ m, p.1 = k := by
  simp [mapHas]

theorem mapHas_eq_false {m : List (κ × α)} {k : κ} :
    mapHas m k = false ↔ ∀ p ∈ m, p.1 ≠ k := by
  simp [mapHas]

theorem mapSet_of_has {m : List (κ × α)} {k : κ} (v : α) (h : mapHas m k = true) :
    mapSet m k v = m.map (fun p => if p.1 = k then (k, v) else p) := by
  simp [mapSet, h]

theorem mapSet_of_not_has {m : List (κ × α)} {k : κ} (v : α) (h : mapHas m k = false) :
    mapSet m k v = m ++ [(k, v)] := by
  simp [mapSet, h]

theorem mapGet_append_right {m : List (κ × α)} {k : κ} {l : List (κ × α)}
    (h : ∀ p ∈ m, p.1 ≠ k) : mapGet (m ++ l) k = mapGet l k := by
  simp only [mapGet, List.find?_append]
  have : m.find? (fun p => decide (p.1 = k)) = none := by
    rw [List.find?_eq_none]
    simpa using h
  rw [this, Option.none_or]

theorem mapGet_mapSet_self {m : List (κ × α)} {k : κ} (v : α) :
    mapGet (mapSet m k v) k = some v := by
  by_cases h : mapHas m k = true
  · rw [mapSet_of_has v h]
    induction m with
    | nil => simp [mapHas] at h
    | cons p m ih =>
      by_cases hk : p.1 = k
      · simp [mapGet, hk]
      · have h' : mapHas m k = true := by
          rcases mapHas_iff.mp h with ⟨q, hq, hqk⟩
          rcases List.mem_cons.mp hq with rfl | hq'
          · exact absurd hqk hk
          · exact mapHas_iff.mpr ⟨q, hq', hqk⟩
        simpa [mapGet, List.find?_cons_of_neg, hk] using ih h'
  · have h' : mapHas m k = false := by
      cases hh : mapHas m k
      · rfl
      · exact absurd hh h
    rw [mapSet_of_not_has v h']
    rw [mapGet_append_right (mapHas_eq_false.mp h')]
    simp [mapGet]

theorem mapGet_mapSet_ne {m : List (κ × α)} {k k' : κ} (v : α) (h : k' ≠ k) :
    mapGet (mapSet m k v) k' = mapGet m k' := by
  by_cases hh : mapHas m k = true
  · rw [mapSet_of_has v hh]
    induction m with
    | nil => simp
    | cons p m ih =>
      have hmapid : mapHas m k = false →
          m.map (fun p => if p.1 = k then (k, v) else p) = m := by
        intro h2'
        conv_rhs => rw [← List.map_id m]
        apply List.map_congr_left
        intro q hq
        have := mapHas_eq_false.mp h2' q hq
        simp [this]
      by_cases hk : p.1 = k
      · have hpk' : ¬ (p.1 = k') := fun hc => h (hc ▸ hk)
        simp only [List.map_cons, if_pos hk]
        rw [mapGet, mapGet, List.find?_cons_of_neg, List.find?_cons_of_neg]
        · by_cases h2 : mapHas m k = true
          · exact ih h2
          · have h2' : mapHas m k = false := by
              cases hh2 : mapHas m k
              · rfl
              · exact absurd hh2 h2
            rw [hmapid h2']
        · simpa using hpk'
        · simpa using fun hc => h hc.symm
      · simp only [List.map_cons, if_neg hk]
        rw [mapGet, mapGet, List.find?_cons, List.find?_cons]
        cases hd : decide (p.1 = k')
        · by_cases h2 : mapHas m k = true
          · exact ih h2
          · have h2' : mapHas m k = false := by
              cases hh2 : mapHas m k
              · rfl
              · exact absurd hh2 h2
            rw [hmapid h2']
        · rfl
  · have h' : mapHas m k = false := by
      cases hh2 : mapHas m k
      · rfl
      · exact absurd hh2 hh
    rw [mapSet_of_not_has v h']
    simp only [mapGet, List.find?_append]
    have : List.find? (fun p => decide (p.1 = k')) [(k, v)] = none := by
      rw [List.find?_eq_none]
      intro x hx
      simp only [List.mem_singleton] at hx
      subst hx
      simp only [decide_eq_true_eq]
      exact fun hc => h hc.symm
    rw [this, Option.or_none]

theorem mapGet_mapDelete_self {m : List (κ × α)} {k : κ} :
    mapGet (mapDelete m k) k = none := by
  rw [mapGet_eq_none_iff]
  intro p hp
  have := List.of_mem_filter hp
  simpa using this

theorem mapGet_mapDelete_ne {m : List (κ × α)} {k k' : κ} (h : k' ≠ k) :
    mapGet (mapDelete m k) k' = mapGet m k' := by
  induction m with
  | nil => rfl
  | cons p m ih =>
    rw [mapDelete, List.filter_cons]
    by_cases hk : p.1 = k
    · have h1 : (decide ¬ p.1 = k) = false := by simp [hk]
      rw [h1, if_neg (by simp)]
      have hpk' : ¬ (p.1 = k') := fun hc => h (hc ▸ hk)
      have h2 : mapGet (p :: m) k' = mapGet m k' := by
        rw [mapGet, List.find?_cons_of_neg]
        · rfl
        · simpa using hpk'
      rw [h2]
      exact ih
    · have h1 : (decide ¬ p.1 = k) = true := by simp [hk]
      rw [h1, if_pos rfl]
      rw [mapGet, mapGet, List.find?_cons, List.find?_cons]
      cases hd : decide (p.1 = k')
      · exact ih
      · rfl

theorem keys_mapSet_of_has {m : List (κ × α)} {k : κ} (v : α)
    (h : mapHas m k = true) :
    (mapSet m k v).map Prod.fst = m.map Prod.fst := by
  rw [mapSet_of_has v h, List.map_map]
  apply List.map_congr_left
  intro p _
  by_cases hk : p.1 = k
  · simp [hk]
  · simp [hk]

theorem nodup_keys_mapSet {m : List (κ × α)} {k : κ} (v : α)
    (hnd : (m.map Prod.fst).Nodup) :
    ((mapSet m k v).map Prod.fst).Nodup := by
  by_cases h : mapHas m k = true
  · rw [keys_mapSet_of_has v h]
    exact hnd
  · have h' : mapHas m k = false := by
      cases hh : mapHas m k
      · rfl
      · exact absurd hh h
    rw [mapSet_of_not_has v h']
    rw [List.map_append]
    simp only [List.map_cons, List.map_nil]
    rw [List.nodup_append]
    refine ⟨hnd, List.nodup_singleton k, ?_⟩
    intro a ha
    simp only [List.mem_singleton]
    intro hc
    subst hc
    obtain ⟨p, hp, hpk⟩ := List.mem_map.mp ha
    exact mapHas_eq_false.mp h' p hp hpk

theorem mem_mapSet_of_ne {m : List (κ × α)} {k k' : κ} {v v' : α}
    (hmem : (k', v') ∈ m) (h : k' ≠ k) : (k', v') ∈ mapSet m k v := by
  by_cases hh : mapHas m k = true
  · rw [mapSet_of_has v hh]
    refine List.mem_map.mpr ⟨(k', v'), hmem, ?_⟩
    simp [h]
  · have h' : mapHas m k = false := by
      cases hh2 : mapHas m k
      · rfl
      · exact absurd hh2 hh
    rw [mapSet_of_not_has v h']
    exact List.mem_append_left _ hmem

theorem mapSet_eq_self {m : List (κ × α)} {k : κ} {v : α}
    (hnd : (m.map Prod.fst).Nodup) (hmem : (k, v) ∈ m) : mapSet m k v = m := by
  have hh : mapHas m k = true := mapHas_iff.mpr ⟨(k, v), hmem, rfl⟩
  rw [mapSet_of_has v hh]
  conv_rhs => rw [← List.map_id m]
  apply List.map_congr_left
  intro p hp
  by_cases hk : p.1 = k
  · have h2 : (k, p.2) ∈ m := by
      have hpp : p = (k, p.2) := by
        cases p
        simp_all
      exact hpp ▸ hp
    have h3 := key_inj hnd h2 hmem
    have hpv : p = (k, v) := by
      cases p
      simp_all
    simp [hk, hpv]
  · simp [hk]

/-- Look-up in a filtered map, for a filter that only inspects entries:
the entry of `k` survives exactly when it satisfies the filter. -/
theorem mapGet_filter {m : List (κ × α)} {P : κ × α → Bool} {k : κ} {v : α}
    (hnd : (m.map Prod.fst).Nodup) (hmem : (k, v) ∈ m) :
    mapGet (m.filter P) k = if P (k, v) then some v else none := by
  by_cases hP : P (k, v) = true
  · rw [if_pos hP]
    apply mapGet_eq_some_of_mem
    · exact ((m.filter_sublist).map Prod.fst).nodup hnd
    · exact List.mem_filter.mpr ⟨hmem, hP⟩
  · rw [if_neg hP]
    rw [mapGet_eq_none_iff]
    intro p hp hpk
    have hpm := List.mem_filter.mp hp
    have hpv : p = (k, v) := by
      have h2 : (k, p.2) ∈ m := by
        have hpp : p = (k, p.2) := by
          cases p
          simp_all
        exact hpp ▸ hpm.1
      have := key_inj hnd h2 hmem
      cases p
      simp_all
    rw [hpv] at hpm
    exact hP hpm.2

end MapLemmas

/-! ## Small facts about the JS helpers -/

theorem jsOrNat_zero (x : Nat) : jsOrNat x 0 = x := by
  unfold jsOrNat
  split
  · simp_all
  · rfl

theorem sliceLast_eq_self_of_le {α : Type} {l : List α} {n : Nat}
    (h : l.length ≤ n) : sliceLast l n = l := by
  unfold sliceLast
  split
  · rfl
  · rw [Nat.sub_eq_zero_of_le h, List.drop_zero]

/-- The conditional trim of `store` always equals the plain
`slice(-maxVersions)`. -/
theorem trim_eq_sliceLast {l : List Nat} {n : Nat} :
    (if l.length > n then sliceLast l n else l) = sliceLast l n := by
  split
  · rfl
  · exact (sliceLast_eq_self_of_le (Nat.le_of_not_lt (by assumption))).symm

/-! ## C9: WorkingMemory lazy expiry -/

/-- C9: for an item bound in WorkingMemory, once `now > expiresAt`,
`get(id)` returns null and removes the binding even though no sweep ran;
while `now ≤ expiresAt` it returns the item and leaves the store
untouched. -/
theorem workingMemory_get_lazy_expiry
    (wm : WorkingMemory) (id : String) (item : WorkingMemoryItem) (now : Nat)
    (hnd : (wm.items.map Prod.fst).Nodup) (hmem : (id, item) ∈ wm.items) :
    (now > item.expiresAt →
      (wm.get id now).1 = none ∧ mapGet (wm.get id now).2.items id = none) ∧
    (now ≤ item.expiresAt →
      (wm.get id now).1 = some item ∧ (wm.get id now).2 = wm) := by
  have hget : mapGet wm.items id = some item := mapGet_eq_some_of_mem hnd hmem
  constructor
  · intro hexp
    simp only [WorkingMemory.get, hget, if_pos hexp]
    refine ⟨by trivial, ?_⟩
    exact mapGet_mapDelete_self
  · intro hok
    have hno : ¬ now > item.expiresAt := Nat.not_lt.mpr hok
    simp only [WorkingMemory.get, hget, if_neg hno]
    exact ⟨by trivial, by trivial⟩

theorem workingMemory_get_lazy_expiry_witness :
    ((wmFixture.items.map Prod.fst).Nodup ∧ ("wm_1", wmItem) ∈ wmFixture.items ∧
      2000 > wmItem.expiresAt) ∧
    (wmFixture.get "wm_1" 2000).1 = none ∧
    mapGet (wmFixture.get "wm_1" 2000).2.items "wm_1" = none := by
  refine ⟨⟨by decide, by decide, by decide⟩, ?_⟩
  exact (workingMemory_get_lazy_expiry wmFixture "wm_1" wmItem 2000
    (by decide) (by decide)).1 (by decide)

/-! ## C2: SemanticMemory.store versioning -/

/-- C2: re-storing an existing id yields version `v+1`, appends `v` to
`previous_versions` trimmed to the last `maxVersions`, and preserves
`create_time`; a fresh id yields version 1, no previous versions, and
`create_time = update_time = now`.  The concrete scenario stores `k1`
with mastery 5 then re-stores it with mastery 7. -/
theorem semanticMemory_store_versioning
    (s : SemanticMemory) (knowledge : KnowledgeInput) (now now1 now2 : Nat)
    (existing : KnowledgeCard) :
    (mapGet s.cache knowledge.id = some existing → existing.create_time ≠ 0 →
      (s.store knowledge now).2.version = existing.version + 1 ∧
      (s.store knowledge now).2.previous_versions =
        sliceLast (existing.previous_versions ++ [existing.version]) s.maxVersions ∧
      (s.store knowledge now).2.create_time = existing.create_time ∧
      mapGet (s.store knowledge now).1.cache knowledge.id =
        some (s.store knowledge now).2) ∧
    (mapGet s.cache knowledge.id = none →
      (s.store knowledge now).2.version = 1 ∧
      (s.store knowledge now).2.previous_versions = [] ∧
      (s.store knowledge now).2.create_time = now ∧
      (s.store knowledge now).2.update_time = now) ∧
    (now1 ≠ 0 →
      ((SemanticMemory.init.store (k1Input 5) now1).1.store (k1Input 7) now2).2.version = 2 ∧
      ((SemanticMemory.init.store (k1Input 5) now1).1.store (k1Input 7) now2).2.previous_versions = [1] ∧
      ((SemanticMemory.init.store (k1Input 5) now1).1.store (k1Input 7) now2).2.create_time = now1) := by
  refine ⟨?_, ?_, ?_⟩
  · intro hget hct
    simp only [SemanticMemory.store, hget]
    refine ⟨by trivial, trim_eq_sliceLast, ?_, mapGet_mapSet_self _⟩
    simp [jsOrNat, hct]
  · intro hget
    simp only [SemanticMemory.store, hget]
    exact ⟨by trivial, by trivial, by trivial, by trivial⟩
  · intro h1
    simp only [SemanticMemory.store, SemanticMemory.init, k1Input]
    simp [mapGet, mapSet, mapHas, jsOrNat, h1, sliceLast]

theorem semanticMemory_store_versioning_witness :
    ((mapGet ((SemanticMemory.init.store (k1Input 5) 1000).1).cache (k1Input 7).id =
        some (SemanticMemory.init.store (k1Input 5) 1000).2 ∧
      (SemanticMemory.init.store (k1Input 5) 1000).2.create_time ≠ 0) ∧
      (1000 : Nat) ≠ 0) ∧
    ((SemanticMemory.init.store (k1Input 5) 1000).1.store (k1Input 7) 2000).2.version = 2 ∧
    ((SemanticMemory.init.store (k1Input 5) 1000).1.store (k1Input 7) 2000).2.previous_versions = [1] ∧
    ((SemanticMemory.init.store (k1Input 5) 1000).1.store (k1Input 7) 2000).2.create_time = 1000 := by
  refine ⟨⟨⟨by decide, by decide⟩, by decide⟩, ?_⟩
  exact (semanticMemory_store_versioning
    (SemanticMemory.init.store (k1Input 5) 1000).1 (k1Input 7) 2000 1000 2000
    (SemanticMemory.init.store (k1Input 5) 1000).2).2.2 (by decide)

/-! ## C10: version snapshots written by update and store -/

/-- C10: `update` snapshots only the superseded version: right after an
update of a card at version `v`, `getVersion(id, v)` returns the
pre-update card while `getVersion(id, v+1)` is still null; the new
version becomes retrievable after a second update supersedes it.
`store`, by contrast, snapshots the version it creates immediately. -/
theorem semanticMemory_update_snapshot_lag
    (s : SemanticMemory) (id : String) (patch patch2 : KnowledgePatch)
    (now now2 : Nat) (existing : KnowledgeCard) (knowledge : KnowledgeInput)
    (hv : s.enableVersioning = true) :
    (mapGet s.cache id = some existing →
      mapGet s.files (id, existing.version + 1) = none →
      ∃ updated,
        (s.update id patch now).2 = some updated ∧
        updated.version = existing.version + 1 ∧
        (s.update id patch now).1.getVersion id existing.version = some existing ∧
        (s.update id patch now).1.getVersion id (existing.version + 1) = none ∧
        (s.update id patch now).1.get id = some updated ∧
        ((s.update id patch now).1.update id patch2 now2).1.getVersion id
          (existing.version + 1) = some updated) ∧
    (s.store knowledge now).1.getVersion knowledge.id
      (s.store knowledge now).2.version = some (s.store knowledge now).2 := by
  constructor
  · intro hget hnof
    simp only [SemanticMemory.update, hget, hv, if_pos]
    refine ⟨_, rfl, rfl, ?_, ?_, ?_, ?_⟩
    · simp only [SemanticMemory.getVersion]
      exact mapGet_mapSet_self _
    · simp only [SemanticMemory.getVersion]
      rw [mapGet_mapSet_ne _ (by simp)]
      exact hnof
    · simp only [SemanticMemory.get]
      exact mapGet_mapSet_self _
    · have hget2 : mapGet (mapSet s.cache id
          ({ applyPatch existing patch with
             update_time := now
             version := existing.version + 1
             previous_versions :=
               sliceLast (existing.previous_versions ++ [existing.version])
                 s.maxVersions })) id = some
          { applyPatch existing patch with
            update_time := now
            version := existing.version + 1
            previous_versions :=
              sliceLast (existing.previous_versions ++ [existing.version])
                s.maxVersions } := mapGet_mapSet_self _
      simp only [SemanticMemory.update, hget2, hv, if_pos]
      simp only [SemanticMemory.getVersion]
      exact mapGet_mapSet_self _
  · simp only [SemanticMemory.store, SemanticMemory.getVersion, hv, if_pos]
    exact mapGet_mapSet_self _

theorem semanticMemory_update_snapshot_lag_witness :
    (smK1.enableVersioning = true ∧
      mapGet smK1.cache "k1" = some cardK1 ∧
      mapGet smK1.files ("k1", cardK1.version + 1) = none) ∧
    (∃ updated,
      (smK1.update "k1" masteryPatch 3000).2 = some updated ∧
      updated.version = cardK1.version + 1 ∧
      (smK1.update "k1" masteryPatch 3000).1.getVersion "k1" cardK1.version =
        some cardK1 ∧
      (smK1.update "k1" masteryPatch 3000).1.getVersion "k1" (cardK1.version + 1) =
        none ∧
      (smK1.update "k1" masteryPatch 3000).1.get "k1" = some updated ∧
      ((smK1.update "k1" masteryPatch 3000).1.update "k1" masteryPatch 4000).1.getVersion
        "k1" (cardK1.version + 1) = some updated) := by
  refine ⟨⟨by decide, by decide, by decide⟩, ?_⟩
  exact (semanticMemory_update_snapshot_lag smK1 "k1" masteryPatch masteryPatch
    3000 4000 cardK1 (k1Input 7) (by decide)).1 (by decide) (by decide)

/-! ## C8: updateStrategyEffect incremental average -/

/-- C8: `updateStrategyEffect(name, success)` replaces the named
strategy's rate by `(oldRate * oldCount + (success ? 1 : 0)) /
(oldCount + 1)` and bumps its usage count; it is a silent no-op on an
unknown name.  Concretely, after `storeStrategy("s1", {endpoint:"/x"})`
(inferred type `api`, initial rate 0.5) three failure reports drive the
rate to 0 monotonically and leave `usageCount = 3`. -/
theorem programMemory_updateStrategyEffect
    (pm : ProgramMemory) (name : String) (success : Bool) (now : Nat)
    (strategy : LearningStrategy) :
    (pm.findByName name = some strategy →
      ∃ upd,
        mapGet (pm.updateStrategyEffect name success now).strategies strategy.id =
          some upd ∧
        upd.successRate =
          (strategy.successRate * strategy.usageCount + (if success then 1 else 0)) /
            (strategy.usageCount + 1) ∧
        upd.usageCount = strategy.usageCount + 1) ∧
    (pm.findByName name = none → pm.updateStrategyEffect name success now = pm) ∧
    ((ProgramMemory.init.storeStrategy "s1" endpointContent 100).2.type = .api ∧
      (pmS1.getStrategy "s1").map (·.successRate) = some (1 / 2) ∧
      (pmU1.getStrategy "s1").map (·.successRate) = some 0 ∧
      (pmU2.getStrategy "s1").map (·.successRate) = some 0 ∧
      (pmU3.getStrategy "s1").map (·.successRate) = some 0 ∧
      (pmU3.getStrategy "s1").map (·.usageCount) = some 3) := by
  refine ⟨?_, ?_, ?_⟩
  · intro hfind
    simp only [ProgramMemory.updateStrategyEffect, hfind]
    refine ⟨_, mapGet_mapSet_self _, ?_, ?_⟩
    · push_cast
      rfl
    · rfl
  · intro hfind
    simp only [ProgramMemory.updateStrategyEffect, hfind]
  · refine ⟨by decide, ?_, ?_, ?_, ?_, ?_⟩ <;>
    norm_num [pmS1, pmU1, pmU2, pmU3, ProgramMemory.init,
      ProgramMemory.storeStrategy, ProgramMemory.updateStrategyEffect,
      ProgramMemory.getStrategy, ProgramMemory.findByName, mapSet, mapGet, mapHas,
      jsOrQ, jsOrNat, jsOrStr, ProgramMemory.inferStrategyType,
      ProgramMemory.extractTags, endpointContent]

theorem programMemory_updateStrategyEffect_witness :
    (pmS1.findByName "s1" =
      some (ProgramMemory.init.storeStrategy "s1" endpointContent 100).2) ∧
    (∃ upd,
      mapGet (pmS1.updateStrategyEffect "s1" false 101).strategies
          (ProgramMemory.init.storeStrategy "s1" endpointContent 100).2.id =
        some upd ∧
      upd.successRate =
        ((ProgramMemory.init.storeStrategy "s1" endpointContent 100).2.successRate *
            (ProgramMemory.init.storeStrategy "s1" endpointContent 100).2.usageCount +
          (if false then 1 else 0)) /
          ((ProgramMemory.init.storeStrategy "s1" endpointContent 100).2.usageCount + 1) ∧
      upd.usageCount =
        (ProgramMemory.init.storeStrategy "s1" endpointContent 100).2.usageCount + 1) := by
  have hfind : pmS1.findByName "s1" =
      some (ProgramMemory.init.storeStrategy "s1" endpointContent 100).2 := by
    norm_num [pmS1, ProgramMemory.init, ProgramMemory.storeStrategy,
      ProgramMemory.findByName, mapSet, mapHas, jsOrQ, jsOrNat, jsOrStr,
      ProgramMemory.inferStrategyType, ProgramMemory.extractTags, endpointContent]
  refine ⟨hfind, ?_⟩
  exact (programMemory_updateStrategyEffect pmS1 "s1" false 101
    (ProgramMemory.init.storeStrategy "s1" endpointContent 100).2).1 hfind

/-! ## C4: storeStrategy frame on an existing name -/

/-- C4 counterexample: `storeStrategy` on an existing name does not
preserve `isOptimal` (it is unconditionally reset to `false`), and the
`||` defaulting replaces a zero `successRate` by 0.5 and zero
`lastUsed`/`createdAt` by `now`. -/
theorem programMemory_storeStrategy_frame_counterexample :
    (storeFixture.getStrategy "s1").map
        (fun s => (s.isOptimal, s.successRate, s.lastUsed, s.createdAt)) =
      some (true, 0, 0, 0) ∧
    (storeFixture.storeStrategy "s1" endpointContent 99).2.isOptimal = false ∧
    (storeFixture.storeStrategy "s1" endpointContent 99).2.successRate = 1 / 2 ∧
    (storeFixture.storeStrategy "s1" endpointContent 99).2.lastUsed = 99 ∧
    (storeFixture.storeStrategy "s1" endpointContent 99).2.createdAt = 99 := by
  refine ⟨?_, ?_, ?_, ?_, ?_⟩ <;>
  norm_num [storeFixture, endpointContent, ProgramMemory.storeStrategy,
    ProgramMemory.getStrategy, ProgramMemory.findByName, mapSet, mapHas,
    jsOrStr, jsOrQ, jsOrNat, ProgramMemory.inferStrategyType,
    ProgramMemory.extractTags]

/-- C4 amended: when `storeStrategy(name, content)` finds an existing
strategy whose `id`, `successRate`, `lastUsed` and `createdAt` are not
falsy, the stored strategy preserves `id`, `successRate`, `usageCount`,
`lastUsed` and `createdAt`, takes the new `content`/`type`/`tags`/
`updatedAt`, and resets `isOptimal` to false. -/
theorem programMemory_storeStrategy_frame
    (pm : ProgramMemory) (name : String) (content : StrategyContent) (now : Nat)
    (existing : LearningStrategy)
    (hfind : pm.findByName name = some existing)
    (hid : existing.id ≠ "") (hsr : existing.successRate ≠ 0)
    (hlu : existing.lastUsed ≠ 0) (hca : existing.createdAt ≠ 0) :
    (pm.storeStrategy name content now).2.id = existing.id ∧
    (pm.storeStrategy name content now).2.successRate = existing.successRate ∧
    (pm.storeStrategy name content now).2.usageCount = existing.usageCount ∧
    (pm.storeStrategy name content now).2.lastUsed = existing.lastUsed ∧
    (pm.storeStrategy name content now).2.createdAt = existing.createdAt ∧
    (pm.storeStrategy name content now).2.isOptimal = false ∧
    (pm.storeStrategy name content now).2.name = name ∧
    (pm.storeStrategy name content now).2.type = ProgramMemory.inferStrategyType content ∧
    (pm.storeStrategy name content now).2.content = content ∧
    (pm.storeStrategy name content now).2.updatedAt = now ∧
    (pm.storeStrategy name content now).2.tags = ProgramMemory.extractTags content := by
  simp only [ProgramMemory.storeStrategy, hfind]
  refine ⟨?_, ?_, jsOrNat_zero _, ?_, ?_, by trivial, by trivial, by trivial,
    by trivial, by trivial, by trivial⟩ <;>
  simp [jsOrStr, jsOrQ, jsOrNat, hid, hsr, hlu, hca]

theorem programMemory_storeStrategy_frame_witness :
    (storeFixtureOk.findByName "s1" = some (mkApiS1 : LearningStrategy) ∧
      (mkApiS1 : LearningStrategy).id ≠ "" ∧ mkApiS1.successRate ≠ 0 ∧
      mkApiS1.lastUsed ≠ 0 ∧ mkApiS1.createdAt ≠ 0) ∧
    (storeFixtureOk.storeStrategy "s1" endpointContent 99).2.id = mkApiS1.id ∧
    (storeFixtureOk.storeStrategy "s1" endpointContent 99).2.successRate =
      mkApiS1.successRate ∧
    (storeFixtureOk.storeStrategy "s1" endpointContent 99).2.usageCount =
      mkApiS1.usageCount ∧
    (storeFixtureOk.storeStrategy "s1" endpointContent 99).2.lastUsed =
      mkApiS1.lastUsed ∧
    (storeFixtureOk.storeStrategy "s1" endpointContent 99).2.createdAt =
      mkApiS1.createdAt ∧
    (storeFixtureOk.storeStrategy "s1" endpointContent 99).2.isOptimal = false := by
  have hfind : storeFixtureOk.findByName "s1" = some mkApiS1 := by
    norm_num [storeFixtureOk, mkApiS1, endpointContent, ProgramMemory.findByName]
  have h := programMemory_storeStrategy_frame storeFixtureOk "s1" endpointContent 99
    mkApiS1 hfind (by simp [mkApiS1]) (by norm_num [mkApiS1])
    (by simp [mkApiS1]) (by simp [mkApiS1])
  exact ⟨⟨hfind, by simp [mkApiS1], by norm_num [mkApiS1],
    by simp [mkApiS1], by simp [mkApiS1]⟩,
    h.1, h.2.1, h.2.2.1, h.2.2.2.1, h.2.2.2.2.1, h.2.2.2.2.2.1⟩

/-! ## C6: detectFromUserFeedback -/

/-- C6 counterexample: the error-like pattern consists of the Chinese
keywords 错误/不对/有问题/遗漏 only, so the English feedback
"this is wrong" does not match and `detectFromUserFeedback` returns
null rather than a detected record. -/
theorem deviation_detect_counterexample :
    (DeviationCorrection.detectFromUserFeedback emptyDeviationState
      "this is wrong" none 5 "r").2 = none ∧
    DeviationCorrection.errorPattern "this is wrong" = false := by
  constructor <;> decide

/-- C6 amended: `detectFromUserFeedback` returns null exactly when the
feedback does not match the error-like pattern (four Chinese keywords,
which "this is wrong" does not contain); on a match it returns a record
with status `detected`, type from `classifyDeviation` (defaulting to
accuracy) and severity from `assessSeverity` (defaulting to medium),
registers it, and logs a `deviation_detected` EpisodicEvent. -/
theorem deviation_detect_amended
    (st : DeviationCorrection.State) (feedback : String)
    (relatedKnowledgeId : Option String) (now : Nat) (rand : String) :
    (DeviationCorrection.errorPattern feedback = false →
      DeviationCorrection.detectFromUserFeedback st feedback relatedKnowledgeId
        now rand = (st, none)) ∧
    (DeviationCorrection.errorPattern feedback = true →
      ∃ d,
        (DeviationCorrection.detectFromUserFeedback st feedback relatedKnowledgeId
          now rand).2 = some d ∧
        d.status = .detected ∧
        d.type = DeviationCorrection.classifyDeviation feedback ∧
        d.severity = DeviationCorrection.assessSeverity feedback ∧
        d.description = feedback ∧
        mapGet (DeviationCorrection.detectFromUserFeedback st feedback
          relatedKnowledgeId now rand).1.activeDeviations d.id = some d ∧
        (DeviationCorrection.detectFromUserFeedback st feedback relatedKnowledgeId
          now rand).1.episodicMemory.memoryCache =
          st.episodicMemory.memoryCache ++
            [{ id := "ep_" ++ toString now ++ "_" ++ rand
               event_type := "deviation_detected"
               content := "检测到认知偏差: " ++
                 (DeviationCorrection.classifyDeviation feedback).str
               timestamp := now }]) := by
  constructor
  · intro h
    simp [DeviationCorrection.detectFromUserFeedback, h]
  · intro h
    simp only [DeviationCorrection.detectFromUserFeedback, h, Bool.true_eq_false,
      if_neg, reduceIte, EpisodicMemory.log]
    exact ⟨_, by trivial, by trivial, by trivial, by trivial, by trivial,
      mapGet_mapSet_self _, by trivial⟩

theorem deviation_detect_amended_witness :
    DeviationCorrection.errorPattern "不对" = true ∧
    (∃ d,
      (DeviationCorrection.detectFromUserFeedback emptyDeviationState "不对"
        none 5 "r").2 = some d ∧
      d.status = .detected ∧
      d.type = DeviationCorrection.classifyDeviation "不对" ∧
      d.severity = DeviationCorrection.assessSeverity "不对" ∧
      d.description = "不对" ∧
      mapGet (DeviationCorrection.detectFromUserFeedback emptyDeviationState "不对"
        none 5 "r").1.activeDeviations d.id = some d ∧
      (DeviationCorrection.detectFromUserFeedback emptyDeviationState "不对"
        none 5 "r").1.episodicMemory.memoryCache =
        emptyDeviationState.episodicMemory.memoryCache ++
          [{ id := "ep_" ++ toString 5 ++ "_" ++ "r"
             event_type := "deviation_detected"
             content := "检测到认知偏差: " ++
               (DeviationCorrection.classifyDeviation "不对").str
             timestamp := 5 }]) := by
  refine ⟨by decide, ?_⟩
  exact (deviation_detect_amended emptyDeviationState "不对" none 5 "r").2 (by decide)

/-! ## C1: prune protection and deletion rule -/

theorem delete_fields (s : SemanticMemory) (id : String) :
    (s.delete id).1.cache = mapDelete s.cache id ∧
    (s.delete id).1.enableVersioning = s.enableVersioning ∧
    (s.delete id).1.maxVersions = s.maxVersions ∧
    (s.delete id).1.files = s.files := by
  unfold SemanticMemory.delete
  split
  · exact ⟨rfl, rfl, rfl, rfl⟩
  · refine ⟨?_, rfl, rfl, rfl⟩
    rename_i h
    have h' : mapHas s.cache id = false := by
      cases hh : mapHas s.cache id
      · rfl
      · exact absurd hh h
    unfold mapDelete
    symm
    rw [List.filter_eq_self]
    intro p hp
    simpa using mapHas_eq_false.mp h' p hp

theorem pruneGo_spec (t : ℚ) (l : List (String × KnowledgeCard))
    (s : SemanticMemory) (acc : List String) :
    (SemanticMemory.pruneGo t l s acc).2 =
      acc ++ (l.filter (dropCard t)).map Prod.fst ∧
    (SemanticMemory.pruneGo t l s acc).1.cache =
      s.cache.filter (fun q => ¬ q.1 ∈ (l.filter (dropCard t)).map Prod.fst) := by
  induction l generalizing s acc with
  | nil =>
    constructor
    · simp [SemanticMemory.pruneGo]
    · simp only [SemanticMemory.pruneGo, List.filter_nil, List.map_nil]
      symm
      rw [List.filter_eq_self]
      intro p _
      simp
  | cons p l ih =>
    obtain ⟨id, card⟩ := p
    rw [SemanticMemory.pruneGo]
    by_cases hprot : card.mastery_score ≥ 8 ∧ card.domain ≠ "general"
    · have hdrop : dropCard t (id, card) = false := by
        simp [dropCard, hprot.1, hprot.2]
      rw [if_pos hprot]
      have := ih s acc
      rw [List.filter_cons, hdrop]
      simpa using this
    · rw [if_neg hprot]
      by_cases hw : SemanticMemory.calculateRetentionWeight card < t
      · have hdrop : dropCard t (id, card) = true := by
          simp only [dropCard, decide_eq_true_eq]
          exact ⟨hprot, hw⟩
        rw [if_pos hw]
        have hdel := delete_fields s id
        have := ih (s.delete id).1 (acc ++ [id])
        rw [List.filter_cons, hdrop]
        constructor
        · rw [this.1]
          simp
        · rw [this.2, hdel.1]
          unfold mapDelete
          rw [List.filter_filter]
          simp only [List.map_cons]
          apply List.filter_congr
          intro q _
          simp only [List.mem_cons, decide_not]
          by_cases h1 : q.1 = id <;> by_cases h2 : q.1 ∈ (l.filter (dropCard t)).map Prod.fst <;>
            simp [h1, h2]
      · have hdrop : dropCard t (id, card) = false := by
          simp only [dropCard]
          simp [hw]
        rw [if_neg hw]
        have := ih s acc
        rw [List.filter_cons, hdrop]
        simpa using this

/-- Key membership in the pruned-id list. -/
theorem mem_pruned_iff (t : ℚ) (s : SemanticMemory) (id : String)
    (card : KnowledgeCard) (hnd : (s.cache.map Prod.fst).Nodup)
    (hmem : (id, card) ∈ s.cache) :
    id ∈ (s.prune t).2 ↔ dropCard t (id, card) = true := by
  rw [SemanticMemory.prune, (pruneGo_spec t s.cache s []).1]
  simp only [List.nil_append, List.mem_map]
  constructor
  · rintro ⟨p, hp, hpk⟩
    have hpm := List.mem_filter.mp hp
    have hpv : p = (id, card) := by
      have h2 : (id, p.2) ∈ s.cache := by
        have hpp : p = (id, p.2) := by
          cases p
          simp_all
        exact hpp ▸ hpm.1
      have := key_inj hnd h2 hmem
      cases p
      simp_all
    rw [hpv] at hpm
    exact hpm.2
  · intro hdrop
    exact ⟨(id, card), List.mem_filter.mpr ⟨hmem, hdrop⟩, rfl⟩

/-- C1: `prune(threshold)` never deletes a card with `mastery_score ≥ 8`
outside the "general" domain, for any threshold; every other card is
deleted exactly when its retention weight is strictly below the
threshold. -/
theorem semanticMemory_prune_rule
    (s : SemanticMemory) (id : String) (card : KnowledgeCard) (t : ℚ)
    (hnd : (s.cache.map Prod.fst).Nodup) (hmem : (id, card) ∈ s.cache) :
    (card.mastery_score ≥ 8 → card.domain ≠ "general" →
      mapGet (s.prune t).1.cache id = some card ∧ id ∉ (s.prune t).2) ∧
    (¬ (card.mastery_score ≥ 8 ∧ card.domain ≠ "general") →
      (id ∈ (s.prune t).2 ↔ SemanticMemory.calculateRetentionWeight card < t) ∧
      mapGet (s.prune t).1.cache id =
        (if SemanticMemory.calculateRetentionWeight card < t then none
         else some card)) := by
  have hcache : (s.prune t).1.cache =
      s.cache.filter (fun q => ¬ q.1 ∈ (s.cache.filter (dropCard t)).map Prod.fst) :=
    (pruneGo_spec t s.cache s []).2
  have hget := mapGet_filter
    (P := fun q => decide (¬ q.1 ∈ (s.cache.filter (dropCard t)).map Prod.fst))
    hnd hmem
  have hkeymem : id ∈ (s.cache.filter (dropCard t)).map Prod.fst ↔
      dropCard t (id, card) = true := by
    have := mem_pruned_iff t s id card hnd hmem
    rw [SemanticMemory.prune, (pruneGo_spec t s.cache s []).1] at this
    simpa using this
  constructor
  · intro h8 hgen
    have hdrop : dropCard t (id, card) = false := by
      simp [dropCard, h8, hgen]
    constructor
    · rw [hcache, hget]
      rw [if_pos]
      simp only [decide_eq_true_eq]
      rw [hkeymem]
      simp [hdrop]
    · rw [mem_pruned_iff t s id card hnd hmem, hdrop]
      simp
  · intro hprot
    have hdrop : dropCard t (id, card) =
        decide (SemanticMemory.calculateRetentionWeight card < t) := by
      simp only [dropCard]
      by_cases hw : SemanticMemory.calculateRetentionWeight card < t
      · simp [hw, hprot]
      · simp [hw]
    constructor
    · rw [mem_pruned_iff t s id card hnd hmem, hdrop]
      simp
    · rw [hcache, hget]
      by_cases hw : SemanticMemory.calculateRetentionWeight card < t
      · rw [if_pos hw, if_neg]
        simp only [decide_eq_true_eq, Decidable.not_not]
        rw [hkeymem, hdrop]
        simp [hw]
      · rw [if_neg hw, if_pos]
        simp only [decide_eq_true_eq]
        rw [hkeymem, hdrop]
        simp [hw]

theorem semanticMemory_prune_rule_witness :
    ((pruneFixture.cache.map Prod.fst).Nodup ∧
      ("hi", protectedCard) ∈ pruneFixture.cache ∧
      protectedCard.mastery_score ≥ 8 ∧ protectedCard.domain ≠ "general") ∧
    mapGet (pruneFixture.prune 1).1.cache "hi" = some protectedCard ∧
    "hi" ∉ (pruneFixture.prune 1).2 := by
  refine ⟨⟨by decide, by decide, by norm_num [protectedCard], by decide⟩, ?_⟩
  exact (semanticMemory_prune_rule pruneFixture "hi" protectedCard 1
    (by decide) (by decide)).1 (by norm_num [protectedCard]) (by decide)

/-! ## C3: markOptimal uniqueness per type -/

/-- Exactly one entry of a nodup-keyed map carries a given present key. -/
theorem countP_key_eq_one {α : Type} {l : List (String × α)} {k : String} {v : α}
    (hnd : (l.map Prod.fst).Nodup) (hmem : (k, v) ∈ l) :
    l.countP (fun p => p.1 = k) = 1 := by
  induction l with
  | nil => cases hmem
  | cons p l ih =>
    simp only [List.map_cons, List.nodup_cons] at hnd
    rcases List.mem_cons.mp hmem with h | h
    · subst h
      rw [List.countP_cons]
      simp only [decide_eq_true_eq]
      have hz : l.countP (fun p => decide (p.1 = k)) = 0 := by
        rw [List.countP_eq_zero]
        intro q hq
        simp only [decide_eq_true_eq]
        intro hc
        exact hnd.1 (hc ▸ List.mem_map.mpr ⟨q, hq, rfl⟩)
      simp [hz]
    · rw [List.countP_cons]
      have hpk : ¬ (p.1 = k) := by
        intro hc
        exact hnd.1 (hc ▸ List.mem_map.mpr ⟨(k, v), h, rfl⟩)
      simp only [decide_eq_true_eq, hpk]
      simp [ih hnd.2 h]

/-- C3: after `markOptimal(name)` on an existing name, the named
strategy is the unique optimal one of its type; strategies of other
types keep their bindings untouched. -/
theorem programMemory_markOptimal_unique
    (pm : ProgramMemory) (name : String) (strat : LearningStrategy)
    (hnd : (pm.strategies.map Prod.fst).Nodup)
    (halign : ∀ p ∈ pm.strategies, p.1 = p.2.id)
    (hfind : pm.findByName name = some strat) :
    strat.name = name ∧
    mapGet (pm.markOptimal name).strategies strat.id =
      some { strat with isOptimal := true } ∧
    ((pm.markOptimal name).strategies.map Prod.snd).countP
      (fun s => s.type = strat.type ∧ s.isOptimal = true) = 1 ∧
    (∀ p ∈ (pm.markOptimal name).strategies, p.2.type = strat.type →
      (p.2.isOptimal = true ↔ p.1 = strat.id)) ∧
    (∀ p ∈ pm.strategies, p.2.type ≠ strat.type →
      (p.1, p.2) ∈ (pm.markOptimal name).strategies) := by
  have hname : strat.name = name := by
    have := List.find?_some hfind
    simpa using this
  have hsmem : (strat.id, strat) ∈ pm.strategies := by
    have hv := List.mem_of_find?_eq_some hfind
    obtain ⟨p, hp, hps⟩ := List.mem_map.mp hv
    have hk := halign p hp
    have : p = (strat.id, strat) := by
      cases p
      simp_all
    exact this ▸ hp
  set clearFn := fun p : String × LearningStrategy =>
    if p.2.type = strat.type ∧ p.2.isOptimal then
      (p.1, { p.2 with isOptimal := false })
    else p with hclearFn
  have hclear_fst : ∀ p : String × LearningStrategy, (clearFn p).1 = p.1 := by
    intro p
    rw [hclearFn]
    dsimp only
    split <;> rfl
  have hkeys : (pm.strategies.map clearFn).map Prod.fst = pm.strategies.map Prod.fst := by
    rw [List.map_map]
    exact List.map_congr_left (fun p _ => hclear_fst p)
  have hhas : mapHas (pm.strategies.map clearFn) strat.id = true := by
    rw [mapHas_iff]
    exact ⟨clearFn (strat.id, strat), List.mem_map.mpr ⟨_, hsmem, rfl⟩,
      hclear_fst _⟩
  have hres : (pm.markOptimal name).strategies =
      pm.strategies.map (fun p =>
        if p.1 = strat.id then (strat.id, { strat with isOptimal := true })
        else clearFn p) := by
    rw [ProgramMemory.markOptimal, hfind]
    simp only
    rw [mapSet_of_has _ hhas, List.map_map]
    apply List.map_congr_left
    intro p _
    simp only [Function.comp_apply, hclear_fst p]
  have hndres : ((pm.markOptimal name).strategies.map Prod.fst).Nodup := by
    rw [hres, List.map_map]
    have : (Prod.fst ∘ fun p : String × LearningStrategy =>
        if p.1 = strat.id then (strat.id, { strat with isOptimal := true })
        else clearFn p) = Prod.fst := by
      funext p
      simp only [Function.comp_apply]
      split
      · simp_all
      · exact hclear_fst p
    rw [this]
    exact hnd
  refine ⟨hname, ?_, ?_, ?_, ?_⟩
  · apply mapGet_eq_some_of_mem hndres
    rw [hres]
    refine List.mem_map.mpr ⟨(strat.id, strat), hsmem, ?_⟩
    simp
  · rw [hres, List.map_map, List.countP_map]
    have hcong : ∀ p ∈ pm.strategies,
        ((fun s : LearningStrategy => decide (s.type = strat.type ∧ s.isOptimal = true)) ∘
          Prod.snd ∘ (fun p : String × LearningStrategy =>
            if p.1 = strat.id then (strat.id, { strat with isOptimal := true })
            else clearFn p)) p = decide (p.1 = strat.id) := by
      intro p hp
      simp only [Function.comp_apply]
      by_cases hk : p.1 = strat.id
      · simp [hk]
      · simp only [if_neg hk, hclearFn]
        by_cases ht : p.2.type = strat.type ∧ p.2.isOptimal
        · simp [ht, hk]
        · simp only [if_neg ht]
          push_neg at ht
          by_cases ht2 : p.2.type = strat.type
          · have := ht ht2
            simp [ht2, this, hk]
          · simp [ht2, hk]
    rw [List.countP_congr (fun p hp => by rw [hcong p hp])]
    exact countP_key_eq_one hnd hsmem
  · intro p hp htype
    rw [hres] at hp
    obtain ⟨q, hq, hqp⟩ := List.mem_map.mp hp
    by_cases hk : q.1 = strat.id
    · subst hqp
      simp [hk]
    · subst hqp
      simp only [if_neg hk]
      constructor
      · intro hopt
        exfalso
        simp only [if_neg hk, hclearFn] at htype hopt
        by_cases ht : q.2.type = strat.type ∧ q.2.isOptimal
        · simp only [if_pos ht] at hopt
          simp at hopt
        · simp only [if_neg ht] at hopt htype
          push_neg at ht
          exact absurd hopt (by simpa using ht htype)
      · intro hk2
        exfalso
        rw [hclear_fst q] at hk2
        exact hk hk2
  · intro p hp htype
    rw [hres]
    have hk : p.1 ≠ strat.id := by
      intro hc
      have hpmem : (strat.id, p.2) ∈ pm.strategies := by
        have hpp : p = (strat.id, p.2) := by
          cases p
          simp_all
        exact hpp ▸ hp
      have := key_inj hnd hpmem hsmem
      exact htype (by rw [this])
    refine List.mem_map.mpr ⟨p, hp, ?_⟩
    rw [if_neg hk, hclearFn]
    simp only
    rw [if_neg]
    rintro ⟨ht, _⟩
    exact htype ht

theorem programMemory_markOptimal_unique_witness :
    ((iterFixture.strategies.map Prod.fst).Nodup ∧
      (∀ p ∈ iterFixture.strategies, p.1 = p.2.id) ∧
      iterFixture.findByName "n2" = some (mkEvalStrategy "2" "n2" (8 / 10) 1 false)) ∧
    mapGet (iterFixture.markOptimal "n2").strategies "2" =
      some { mkEvalStrategy "2" "n2" (8 / 10) 1 false with isOptimal := true } ∧
    ((iterFixture.markOptimal "n2").strategies.map Prod.snd).countP
      (fun s => s.type = (mkEvalStrategy "2" "n2" (8 / 10) 1 false).type ∧
        s.isOptimal = true) = 1 := by
  have hfind : iterFixture.findByName "n2" =
      some (mkEvalStrategy "2" "n2" (8 / 10) 1 false) := by
    simp [iterFixture, mkEvalStrategy, endpointContent, ProgramMemory.findByName]
  have h := programMemory_markOptimal_unique iterFixture "n2"
    (mkEvalStrategy "2" "n2" (8 / 10) 1 false) (by decide)
    (by decide) hfind
  exact ⟨⟨by decide, by decide, hfind⟩, h.2.1, h.2.2.1⟩

/-! ## C5: executePath knowledge-card creation -/

theorem execSteps_steps (pm : ProgramMemory) (now : Nat)
    (steps : List LearningStep) :
    (PathPlanner.execSteps pm now steps).2 = steps.map PathPlanner.stepExecF := by
  induction steps generalizing pm with
  | nil => rfl
  | cons s rest ih =>
    rw [PathPlanner.execSteps]
    by_cases h : s.status = .completed ∨ s.status = .skipped
    · simp only [if_pos h, List.map_cons]
      rw [ih]
      rw [PathPlanner.stepExecF, if_pos h]
    · simp only [if_neg h, List.map_cons]
      rw [ih]
      rw [PathPlanner.stepExecF, if_neg h]

/-- C5 counterexample: a path finishing with partial completion (one
pre-skipped step, one executed step: 1 of 2 completed) stores no
knowledge card and returns no `knowledgeId`. -/
theorem pathPlanner_executePath_partial_counterexample :
    (PathPlanner.executePath ProgramMemory.init SemanticMemory.init
      partialPath 50).2.2.2.completedSteps = 1 ∧
    (PathPlanner.executePath ProgramMemory.init SemanticMemory.init
      partialPath 50).2.2.2.totalSteps = 2 ∧
    (PathPlanner.executePath ProgramMemory.init SemanticMemory.init
      partialPath 50).2.2.2.knowledgeId = none ∧
    (PathPlanner.executePath ProgramMemory.init SemanticMemory.init
      partialPath 50).2.1 = SemanticMemory.init ∧
    (PathPlanner.executePath ProgramMemory.init SemanticMemory.init
      partialPath 50).2.2.2.success = false := by
  refine ⟨?_, ?_, ?_, ?_, ?_⟩ <;>
  simp [PathPlanner.executePath, PathPlanner.execSteps, PathPlanner.executeStep,
    partialPath, pendingStep, ProgramMemory.init,
    ProgramMemory.updateStrategyEffect, ProgramMemory.findByName]

/-- C5 amended: when `executePath` finishes with full completion (it
does whenever no step was pre-skipped: every other step is executed and
completed), a new knowledge card is stored with `mastery_score = 6`,
`timeliness = latest`, `core_content` the concatenation of the step
result contents, and domain/keywords derived from the topic; the result
carries the card id in `knowledgeId`.  On partial completion no card is
stored (see the counterexample). -/
theorem pathPlanner_executePath_card
    (pm : ProgramMemory) (sm : SemanticMemory) (path : LearningPath) (now : Nat)
    (hns : ∀ st ∈ path.steps, st.status ≠ StepStatus.skipped) :
    (PathPlanner.executePath pm sm path now).2.2.2.success = true ∧
    (PathPlanner.executePath pm sm path now).2.2.2.completedSteps =
      path.steps.length ∧
    ∃ c : KnowledgeCard,
      (PathPlanner.executePath pm sm path now).2.2.2.knowledgeId = some c.id ∧
      (PathPlanner.executePath pm sm path now).2.1.get c.id = some c ∧
      c.mastery_score = 6 ∧ c.timeliness = Timeliness.latest ∧
      c.core_content = PathPlanner.combinedContent
        (PathPlanner.executePath pm sm path now).2.2.1.steps ∧
      c.domain = PathPlanner.extractDomain path.topic ∧
      c.keywords = PathPlanner.extractKeywords path.topic ∧
      c.title = path.topic := by
  have hsteps : (PathPlanner.execSteps pm now path.steps).2 =
      path.steps.map PathPlanner.stepExecF := execSteps_steps pm now path.steps
  have hall : ∀ x ∈ (PathPlanner.execSteps pm now path.steps).2,
      x.status = StepStatus.completed := by
    rw [hsteps]
    intro x hx
    obtain ⟨s, hs, rfl⟩ := List.mem_map.mp hx
    have hnskip := hns s hs
    rw [PathPlanner.stepExecF]
    by_cases h : s.status = .completed ∨ s.status = .skipped
    · rcases h with h | h
      · rw [if_pos (Or.inl h)]
        exact h
      · exact absurd h hnskip
    · rw [if_neg h]
  have hfilter : (PathPlanner.execSteps pm now path.steps).2.filter
      (fun s => s.status = StepStatus.completed) =
      (PathPlanner.execSteps pm now path.steps).2 := by
    rw [List.filter_eq_self]
    intro a ha
    simpa using hall a ha
  have hlen : ((PathPlanner.execSteps pm now path.steps).2.filter
      (fun s => s.status = StepStatus.completed)).length =
      (PathPlanner.execSteps pm now path.steps).2.length := by
    rw [hfilter]
  have hlensteps : (PathPlanner.execSteps pm now path.steps).2.length =
      path.steps.length := by
    rw [hsteps, List.length_map]
  simp only [PathPlanner.executePath, hlen, eq_self_iff_true, ite_true, decide_True]
  refine ⟨by trivial, by rw [hlensteps], ?_⟩
  simp only [PathPlanner.createKnowledgeCard]
  refine ⟨(sm.store
      { id := "kn_" ++ PathPlanner.slugify path.topic ++ "_" ++ toString now
        title := path.topic
        domain := PathPlanner.extractDomain path.topic
        keywords := PathPlanner.extractKeywords path.topic
        core_content :=
          PathPlanner.combinedContent (PathPlanner.execSteps pm now path.steps).2
        sources := PathPlanner.dedupFirst
          (PathPlanner.collectSources (PathPlanner.execSteps pm now path.steps).2)
        mastery_score := 6
        timeliness := Timeliness.latest
        related_knowledge := []
        metadata_usageCount := none } now).2,
    by trivial, ?_, by trivial, by trivial, by trivial, by trivial,
    by trivial, by trivial⟩
  simp only [SemanticMemory.store, SemanticMemory.get]
  exact mapGet_mapSet_self _

theorem pathPlanner_executePath_card_witness :
    (∀ st ∈ fullPath.steps, st.status ≠ StepStatus.skipped) ∧
    (PathPlanner.executePath ProgramMemory.init SemanticMemory.init
      fullPath 50).2.2.2.success = true ∧
    (∃ c : KnowledgeCard,
      (PathPlanner.executePath ProgramMemory.init SemanticMemory.init
        fullPath 50).2.2.2.knowledgeId = some c.id ∧
      (PathPlanner.executePath ProgramMemory.init SemanticMemory.init
        fullPath 50).2.1.get c.id = some c ∧
      c.mastery_score = 6 ∧ c.timeliness = Timeliness.latest ∧
      c.domain = PathPlanner.extractDomain fullPath.topic ∧
      c.keywords = PathPlanner.extractKeywords fullPath.topic) := by
  have h := pathPlanner_executePath_card ProgramMemory.init SemanticMemory.init
    fullPath 50 (by decide)
  obtain ⟨hs, _, c, h1, h2, h3, h4, _, h6, h7, _⟩ := h
  exact ⟨by decide, hs, c, h1, h2, h3, h4, h6, h7⟩

/-! ## C7: lemmas about the iteration sweep -/

namespace ProgramMemory

theorem insertByRate_perm (acc : List LearningStrategy) (x : LearningStrategy) :
    (insertByRate acc x).Perm (x :: acc) := by
  induction acc with
  | nil => exact List.Perm.refl _
  | cons y rest ih =>
    rw [insertByRate]
    split
    · exact List.Perm.refl _
    · exact (ih.cons y).trans (List.Perm.swap x y rest)

theorem sortByRateDesc_perm_aux (l acc : List LearningStrategy) :
    (l.foldl insertByRate acc).Perm (acc ++ l) := by
  induction l generalizing acc with
  | nil => simp
  | cons x rest ih =>
    rw [List.foldl_cons]
    have h1 := ih (insertByRate acc x)
    have h2 : ((insertByRate acc x) ++ rest).Perm ((x :: acc) ++ rest) :=
      (insertByRate_perm acc x).append_right rest
    have h3 : ((x :: acc) ++ rest).Perm (acc ++ x :: rest) := by
      exact List.perm_middle.symm
    exact (h1.trans h2).trans h3

theorem sortByRateDesc_perm (l : List LearningStrategy) :
    (sortByRateDesc l).Perm l := by
  have := sortByRateDesc_perm_aux l []
  simpa [sortByRateDesc] using this

theorem mem_sortByRateDesc {l : List LearningStrategy} {x : LearningStrategy} :
    x ∈ sortByRateDesc l ↔ x ∈ l :=
  (sortByRateDesc_perm l).mem_iff

theorem setFlags_map_id (oc i : Nat) (l : List LearningStrategy) :
    (setFlags oc i l).map (fun s => s.id) = l.map (fun s => s.id) := by
  induction l generalizing i with
  | nil => rfl
  | cons s rest ih => simp [setFlags, ih]

theorem setFlags_flagOnly (oc i : Nat) (l : List LearningStrategy) :
    ∀ u ∈ setFlags oc i l, ∃ y ∈ l, u = { y with isOptimal := u.isOptimal } := by
  induction l generalizing i with
  | nil => intro u hu; simp [setFlags] at hu
  | cons s rest ih =>
    intro u hu
    rw [setFlags] at hu
    rcases List.mem_cons.mp hu with h | h
    · refine ⟨s, List.mem_cons_self s rest, ?_⟩
      rw [h]
    · obtain ⟨y, hy, hyu⟩ := ih (i + 1) u h
      exact ⟨y, List.mem_cons_of_mem s hy, hyu⟩

theorem setFlags_idem (oc i : Nat) (l : List LearningStrategy) :
    setFlags oc i (setFlags oc i l) = setFlags oc i l := by
  induction l generalizing i with
  | nil => rfl
  | cons s rest ih => simp [setFlags, ih]

theorem replaceById_id (upd : List LearningStrategy) (s : LearningStrategy) :
    (replaceById upd s).id = s.id := by
  rw [replaceById]
  cases hf : upd.find? (fun u => u.id = s.id) with
  | none => rfl
  | some u =>
    have := List.find?_some hf
    simpa using this

theorem replaceById_of_not_mem {upd : List LearningStrategy} {s : LearningStrategy}
    (h : s.id ∉ upd.map (fun u => u.id)) : replaceById upd s = s := by
  rw [replaceById]
  have hf : upd.find? (fun u => u.id = s.id) = none := by
    rw [List.find?_eq_none]
    intro u hu
    simp only [decide_eq_true_eq]
    intro hc
    exact h (List.mem_map.mpr ⟨u, hu, hc⟩)
  rw [hf]

theorem find?_of_id_mem {F : List LearningStrategy} {i : String}
    (h : i ∈ F.map (fun u => u.id)) :
    ∃ u, F.find? (fun u => u.id = i) = some u ∧ u.id = i ∧ u ∈ F := by
  induction F with
  | nil => simp at h
  | cons u rest ih =>
    by_cases hu : u.id = i
    · refine ⟨u, ?_, hu, List.mem_cons_self u rest⟩
      rw [List.find?_cons_of_pos]
      simpa using hu
    · have h' : i ∈ rest.map (fun u => u.id) := by
        simp only [List.map_cons, List.mem_cons] at h
        rcases h with h | h
        · exact absurd h.symm hu
        · exact h
      obtain ⟨v, hfind, hvi, hvm⟩ := ih h'
      refine ⟨v, ?_, hvi, List.mem_cons_of_mem u hvm⟩
      rw [List.find?_cons_of_neg]
      · exact hfind
      · simpa using hu

theorem replaceById_append_left {F1 F2 : List LearningStrategy} {s : LearningStrategy}
    (h : s.id ∈ F1.map (fun u => u.id)) :
    replaceById (F1 ++ F2) s = replaceById F1 s := by
  obtain ⟨u, hfind, hid, hmem⟩ := find?_of_id_mem h
  rw [replaceById, replaceById, List.find?_append, hfind]
  rfl

theorem replaceById_append_right {F1 F2 : List LearningStrategy} {s : LearningStrategy}
    (h : s.id ∉ F1.map (fun u => u.id)) :
    replaceById (F1 ++ F2) s = replaceById F2 s := by
  rw [replaceById, replaceById, List.find?_append]
  have hf : F1.find? (fun u => u.id = s.id) = none := by
    rw [List.find?_eq_none]
    intro u hu
    simp only [decide_eq_true_eq]
    intro hc
    exact h (List.mem_map.mpr ⟨u, hu, hc⟩)
  rw [hf, Option.none_or]

theorem replaceById_comp {F1 F2 : List LearningStrategy} {s : LearningStrategy}
    (hdisj : ∀ i ∈ F1.map (fun u => u.id), i ∉ F2.map (fun u => u.id)) :
    replaceById F2 (replaceById F1 s) = replaceById (F1 ++ F2) s := by
  by_cases h : s.id ∈ F1.map (fun u => u.id)
  · obtain ⟨u, hfind, hid, hmem⟩ := find?_of_id_mem h
    rw [replaceById_append_left h]
    have h1 : replaceById F1 s = u := by rw [replaceById, hfind]
    rw [h1]
    apply replaceById_of_not_mem
    rw [hid]
    exact hdisj _ h
  · rw [replaceById_of_not_mem h, replaceById_append_right h]

theorem map_replaceById_setFlags (oc i : Nat) (l : List LearningStrategy)
    (hnd : (l.map (fun s => s.id)).Nodup) :
    l.map (replaceById (setFlags oc i l)) = setFlags oc i l := by
  induction l generalizing i with
  | nil => rfl
  | cons s rest ih =>
    have hnd' : s.id ∉ rest.map (fun s => s.id) ∧
        (rest.map (fun s => s.id)).Nodup := by
      simpa using hnd
    rw [setFlags, List.map_cons]
    congr 1
    · rw [replaceById, List.find?_cons_of_pos]
      simp
    · have hcong : ∀ hd : LearningStrategy, hd.id = s.id → ∀ x ∈ rest,
          replaceById (hd :: setFlags oc (i + 1) rest) x =
          replaceById (setFlags oc (i + 1) rest) x := by
        intro hd hhd x hx
        rw [replaceById, replaceById, List.find?_cons_of_neg]
        simp only [decide_eq_true_eq, hhd]
        intro hc
        exact hnd'.1 (hc ▸ List.mem_map.mpr ⟨x, hx, rfl⟩)
      rw [List.map_congr_left
        (hcong { s with isOptimal := decide (i < oc ∧ s.successRate > 3 / 10) } rfl)]
      exact ih (i + 1) hnd'.2

theorem insertByRate_map (g : LearningStrategy → LearningStrategy)
    (acc : List LearningStrategy) (x : LearningStrategy)
    (hacc : ∀ y ∈ acc, (g y).successRate = y.successRate)
    (hx : (g x).successRate = x.successRate) :
    insertByRate (acc.map g) (g x) = (insertByRate acc x).map g := by
  induction acc with
  | nil => rfl
  | cons y rest ih =>
    have hy := hacc y (List.mem_cons_self y rest)
    rw [List.map_cons, insertByRate, insertByRate]
    by_cases h : y.successRate < x.successRate
    · rw [if_pos (by rw [hy, hx]; exact h), if_pos h]
      rfl
    · rw [if_neg (by rw [hy, hx]; exact h), if_neg h]
      rw [List.map_cons, ih (fun z hz => hacc z (List.mem_cons_of_mem y hz))]

theorem foldl_insertByRate_map (g : LearningStrategy → LearningStrategy)
    (l acc : List LearningStrategy)
    (hl : ∀ x ∈ l, (g x).successRate = x.successRate)
    (hacc : ∀ y ∈ acc, (g y).successRate = y.successRate) :
    (l.map g).foldl insertByRate (acc.map g) =
      (l.foldl insertByRate acc).map g := by
  induction l generalizing acc with
  | nil => rfl
  | cons x rest ih =>
    rw [List.map_cons, List.foldl_cons, List.foldl_cons]
    rw [insertByRate_map g acc x hacc (hl x (List.mem_cons_self x rest))]
    refine ih (insertByRate acc x) (fun z hz => hl z (List.mem_cons_of_mem x hz)) ?_
    intro y hy
    have hmem := (insertByRate_perm acc x).mem_iff.mp hy
    rcases List.mem_cons.mp hmem with h | h
    · rw [h]
      exact hl x (List.mem_cons_self x rest)
    · exact hacc y h

theorem sortByRateDesc_map (g : LearningStrategy → LearningStrategy)
    (l : List LearningStrategy)
    (hl : ∀ x ∈ l, (g x).successRate = x.successRate) :
    sortByRateDesc (l.map g) = (sortByRateDesc l).map g := by
  have h := foldl_insertByRate_map g l [] hl (by intro y hy; cases hy)
  simpa [sortByRateDesc] using h

end ProgramMemory

theorem mapHas_eq_keys {κ α : Type} [DecidableEq κ] {m : List (κ × α)} {k : κ} :
    mapHas m k = true ↔ k ∈ m.map Prod.fst := by
  rw [mapHas_iff]
  constructor
  · rintro ⟨p, hp, hpk⟩
    exact List.mem_map.mpr ⟨p, hp, hpk⟩
  · intro h
    obtain ⟨p, hp, hpk⟩ := List.mem_map.mp h
    exact ⟨p, hp, hpk⟩

namespace ProgramMemory

theorem setEntries_eq_map (upd : List LearningStrategy)
    (st : List (String × LearningStrategy))
    (hnd : (st.map Prod.fst).Nodup)
    (halign : ∀ p ∈ st, p.1 = p.2.id)
    (hhas : ∀ u ∈ upd, mapHas st u.id = true)
    (hund : (upd.map (fun u => u.id)).Nodup) :
    setEntries st upd = st.map (fun p => (p.1, replaceById upd p.2)) := by
  induction upd generalizing st with
  | nil =>
    rw [setEntries, List.foldl_nil]
    have : ∀ p ∈ st, p = (p.1, replaceById [] p.2) := by
      intro p _
      rw [replaceById]
      rfl
    conv_lhs => rw [← List.map_id st]
    exact List.map_congr_left (fun p hp => (this p hp).symm ▸ rfl)
  | cons u upd' ih =>
    have hhasu := hhas u (List.mem_cons_self u upd')
    have hund' : (upd'.map (fun u => u.id)).Nodup ∧
        u.id ∉ upd'.map (fun u => u.id) := by
      have := hund
      simp only [List.map_cons, List.nodup_cons] at this
      exact ⟨this.2, this.1⟩
    have hst1 : mapSet st u.id u =
        st.map (fun p => if p.1 = u.id then (u.id, u) else p) :=
      mapSet_of_has u hhasu
    have hkeys1 : (mapSet st u.id u).map Prod.fst = st.map Prod.fst :=
      keys_mapSet_of_has u hhasu
    have h1 : ((mapSet st u.id u).map Prod.fst).Nodup := by
      rw [hkeys1]; exact hnd
    have h2 : ∀ p ∈ mapSet st u.id u, p.1 = p.2.id := by
      intro p hp
      rw [hst1] at hp
      obtain ⟨q, hq, hqp⟩ := List.mem_map.mp hp
      by_cases hk : q.1 = u.id
      · rw [if_pos hk] at hqp
        rw [← hqp]
      · rw [if_neg hk] at hqp
        rw [← hqp]
        exact halign q hq
    have h3 : ∀ u' ∈ upd', mapHas (mapSet st u.id u) u'.id = true := by
      intro u' hu'
      rw [mapHas_eq_keys, hkeys1, ← mapHas_eq_keys]
      exact hhas u' (List.mem_cons_of_mem u hu')
    have ih' := ih (mapSet st u.id u) h1 h2 h3 hund'.1
    rw [setEntries, List.foldl_cons]
    rw [setEntries] at ih'
    rw [ih', hst1, List.map_map]
    apply List.map_congr_left
    intro p hp
    simp only [Function.comp_apply]
    by_cases hk : p.1 = u.id
    · rw [if_pos hk]
      have hrep1 : replaceById upd' u = u :=
        replaceById_of_not_mem hund'.2
      have hrep2 : replaceById (u :: upd') p.2 = u := by
        rw [replaceById, List.find?_cons_of_pos]
        simp only [decide_eq_true_eq]
        rw [← halign p hp, hk]
      rw [hrep1, hrep2, hk]
    · rw [if_neg hk]
      have hrep : replaceById (u :: upd') p.2 = replaceById upd' p.2 := by
        rw [replaceById, replaceById, List.find?_cons_of_neg]
        simp only [decide_eq_true_eq]
        rw [← halign p hp]
        exact fun hc => hk hc.symm
      rw [hrep]

theorem iterGroupGo_no_removal (oc : Nat) (i : Nat)
    (sorted : List LearningStrategy)
    (st : List (String × LearningStrategy)) (out : IterOutcome)
    (hnd : (st.map Prod.fst).Nodup)
    (hids : (sorted.map (fun s => s.id)).Nodup)
    (hentries : ∀ s ∈ sorted, (s.id, s) ∈ st)
    (hnorem : ∀ s ∈ sorted, ¬ remCond s) :
    (iterGroupGo oc i sorted st out).1 = setEntries st (setFlags oc i sorted) := by
  induction sorted generalizing i st out with
  | nil => rfl
  | cons s rest ih =>
    have hsrem : ¬ (s.successRate < 1 / 10 ∧ s.usageCount > 10) :=
      hnorem s (List.mem_cons_self s rest)
    have hids' : s.id ∉ rest.map (fun s => s.id) ∧
        (rest.map (fun s => s.id)).Nodup := by
      simpa using hids
    have hmemst := hentries s (List.mem_cons_self s rest)
    have hinv : ∀ v : LearningStrategy,
        ((mapSet st s.id v).map Prod.fst).Nodup ∧
        (∀ x ∈ rest, (x.id, x) ∈ mapSet st s.id v) := by
      intro v
      refine ⟨nodup_keys_mapSet v hnd, ?_⟩
      intro x hx
      have hxid : x.id ≠ s.id := by
        intro hc
        exact hids'.1 (hc ▸ List.mem_map.mpr ⟨x, hx, rfl⟩)
      exact mem_mapSet_of_ne (hentries x (List.mem_cons_of_mem s hx)) hxid
    rw [iterGroupGo]
    simp only [if_neg hsrem]
    by_cases hpro : (i < oc ∧ s.successRate > 3 / 10) ∧ s.isOptimal = false
    · rw [if_pos hpro]
      have hd : decide (i < oc ∧ s.successRate > 3 / 10) = true :=
        decide_eq_true hpro.1
      rw [setFlags]
      rw [hd]
      rw [show setEntries st
          ({ s with isOptimal := true } :: setFlags oc (i + 1) rest) =
          setEntries (mapSet st s.id { s with isOptimal := true })
            (setFlags oc (i + 1) rest) from rfl]
      exact ih (i + 1) _ _ (hinv _).1 hids'.2 (hinv _).2
        (fun x hx => hnorem x (List.mem_cons_of_mem s hx))
    · rw [if_neg hpro]
      by_cases hdem : ¬ (i < oc ∧ s.successRate > 3 / 10) ∧ s.isOptimal = true
      · rw [if_pos hdem]
        have hd : decide (i < oc ∧ s.successRate > 3 / 10) = false := by
          simp [hdem.1]
        rw [setFlags]
        rw [hd]
        rw [show setEntries st
            ({ s with isOptimal := false } :: setFlags oc (i + 1) rest) =
            setEntries (mapSet st s.id { s with isOptimal := false })
              (setFlags oc (i + 1) rest) from rfl]
        exact ih (i + 1) _ _ (hinv _).1 hids'.2 (hinv _).2
          (fun x hx => hnorem x (List.mem_cons_of_mem s hx))
      · rw [if_neg hdem]
        have hflag : decide (i < oc ∧ s.successRate > 3 / 10) = s.isOptimal := by
          cases hopt : s.isOptimal
          · have : ¬ (i < oc ∧ s.successRate > 3 / 10) := by
              intro hsb
              exact hpro ⟨hsb, hopt⟩
            simpa using this
          · have : (i < oc ∧ s.successRate > 3 / 10) := by
              by_contra hsb
              exact hdem ⟨hsb, hopt⟩
            simpa using this
        have hsame : ({ s with isOptimal := decide (i < oc ∧ s.successRate > 3 / 10) } : LearningStrategy) = s := by
          rw [hflag]
        rw [setFlags, hsame]
        rw [show setEntries st (s :: setFlags oc (i + 1) rest) =
            setEntries (mapSet st s.id s) (setFlags oc (i + 1) rest) from rfl]
        rw [mapSet_eq_self hnd hmemst]
        exact ih (i + 1) st out hnd hids'.2
          (fun x hx => hentries x (List.mem_cons_of_mem s hx))
          (fun x hx => hnorem x (List.mem_cons_of_mem s hx))

theorem iterGroupGo_settled (oc : Nat) (i : Nat)
    (sorted : List LearningStrategy)
    (st : List (String × LearningStrategy)) (out : IterOutcome)
    (hset : setFlags oc i sorted = sorted)
    (hnorem : ∀ s ∈ sorted, ¬ remCond s) :
    iterGroupGo oc i sorted st out = (st, out) := by
  induction sorted generalizing i st out with
  | nil => rfl
  | cons s rest ih =>
    rw [setFlags] at hset
    have h1 : ({ s with isOptimal := decide (i < oc ∧ s.successRate > 3 / 10) } : LearningStrategy) = s :=
      (List.cons.injEq _ _ _ _ ▸ hset).1
    have h2 : setFlags oc (i + 1) rest = rest :=
      (List.cons.injEq _ _ _ _ ▸ hset).2
    have hflag : s.isOptimal = decide (i < oc ∧ s.successRate > 3 / 10) := by
      have := congrArg LearningStrategy.isOptimal h1
      exact this.symm
    have hsrem : ¬ (s.successRate < 1 / 10 ∧ s.usageCount > 10) :=
      hnorem s (List.mem_cons_self s rest)
    have hc1 : ¬ ((i < oc ∧ s.successRate > 3 / 10) ∧ s.isOptimal = false) := by
      rintro ⟨hsb, hopt⟩
      rw [hflag, decide_eq_true hsb] at hopt
      cases hopt
    have hc2 : ¬ (¬ (i < oc ∧ s.successRate > 3 / 10) ∧ s.isOptimal = true) := by
      rintro ⟨hsb, hopt⟩
      rw [hflag] at hopt
      rw [decide_eq_true_eq] at hopt
      exact hsb hopt
    rw [iterGroupGo]
    simp only [if_neg hc1, if_neg hc2, if_neg hsrem]
    exact ih (i + 1) st out h2
      (fun x hx => hnorem x (List.mem_cons_of_mem s hx))

theorem typesInOrder_foldl_nodup (ts : List StrategyType)
    (acc : List StrategyType) (hacc : acc.Nodup) :
    (ts.foldl (fun acc t => if t ∈ acc then acc else acc ++ [t]) acc).Nodup := by
  induction ts generalizing acc with
  | nil => exact hacc
  | cons t ts ih =>
    rw [List.foldl_cons]
    by_cases h : t ∈ acc
    · rw [if_pos h]
      exact ih acc hacc
    · rw [if_neg h]
      apply ih
      rw [List.nodup_append]
      exact ⟨hacc, List.nodup_singleton t,
        fun a ha hb => h ((List.mem_singleton.mp hb) ▸ ha)⟩

theorem typesInOrder_nodup (l : List LearningStrategy) :
    (typesInOrder l).Nodup := by
  rw [typesInOrder]
  exact typesInOrder_foldl_nodup _ _ List.nodup_nil

theorem typesInOrder_map (g : LearningStrategy → LearningStrategy)
    (l : List LearningStrategy) (h : ∀ x ∈ l, (g x).type = x.type) :
    typesInOrder (l.map g) = typesInOrder l := by
  rw [typesInOrder, typesInOrder, List.map_map]
  congr 1
  exact List.map_congr_left (fun x hx => h x hx)

theorem filter_map_type (g : LearningStrategy → LearningStrategy)
    (l : List LearningStrategy) (t : StrategyType)
    (h : ∀ x ∈ l, (g x).type = x.type) :
    (l.map g).filter (fun s => s.type = t) =
      (l.filter (fun s => s.type = t)).map g := by
  rw [List.filter_map]
  congr 1
  apply List.filter_congr
  intro x hx
  simp only [Function.comp_apply]
  rw [h x hx]

theorem groups_ids_nodup (vs : List LearningStrategy)
    (hvnd : (vs.map (fun s => s.id)).Nodup) :
    (((typesInOrder vs).map (fun t =>
      (vs.filter (fun s => s.type = t)).map (fun s => s.id))).flatten).Nodup := by
  rw [List.nodup_flatten]
  constructor
  · intro ids hids
    obtain ⟨t, _, rfl⟩ := List.mem_map.mp hids
    exact (List.Sublist.map (fun s => s.id) (List.filter_sublist vs)).nodup hvnd
  · have hinj := List.inj_on_of_nodup_map hvnd
    rw [List.pairwise_map]
    apply List.Pairwise.imp ?_ (typesInOrder_nodup vs)
    intro t t' hne
    intro i hi hi'
    obtain ⟨x, hx, hxi⟩ := List.mem_map.mp hi
    obtain ⟨y, hy, hyi⟩ := List.mem_map.mp hi'
    have hxm := List.mem_filter.mp hx
    have hym := List.mem_filter.mp hy
    have hxy : x = y := hinj hxm.1 hym.1 (by rw [hxi, hyi])
    apply hne
    have ht : x.type = t := by simpa using hxm.2
    have ht' : y.type = t' := by simpa using hym.2
    rw [← ht, ← ht', hxy]

theorem replaceById_flatten (Fs : List (List LearningStrategy))
    (F : List LearningStrategy) (hF : F ∈ Fs)
    (hnd : ((Fs.map (fun F => F.map (fun s => s.id))).flatten).Nodup)
    (s : LearningStrategy) (hs : s.id ∈ F.map (fun s => s.id)) :
    replaceById Fs.flatten s = replaceById F s := by
  induction Fs with
  | nil => cases hF
  | cons F0 Fs' ih =>
    rw [List.flatten_cons]
    simp only [List.map_cons, List.flatten_cons, List.nodup_append] at hnd
    rcases List.mem_cons.mp hF with rfl | hF'
    · exact replaceById_append_left hs
    · have hid' : s.id ∈ ((Fs'.map (fun F => F.map (fun s => s.id))).flatten) := by
        apply List.mem_flatten.mpr
        exact ⟨F.map (fun s => s.id), List.mem_map.mpr ⟨F, hF', rfl⟩, hs⟩
      have hnotin : s.id ∉ F0.map (fun s => s.id) := by
        intro hc
        exact hnd.2.2 hc hid'
      rw [replaceById_append_right hnotin]
      exact ih hF' hnd.2.1

theorem foldl_iterGroup_id (groups : List (List LearningStrategy))
    (h : ∀ G ∈ groups, ∀ st out,
      iterGroupGo (optimalCount G.length) 0 (sortByRateDesc G) st out = (st, out))
    (st : List (String × LearningStrategy)) (out : IterOutcome) :
    groups.foldl (fun acc group =>
      iterGroupGo (optimalCount group.length) 0 (sortByRateDesc group) acc.1 acc.2)
      (st, out) = (st, out) := by
  induction groups with
  | nil => rfl
  | cons G Gs ih =>
    rw [List.foldl_cons]
    rw [show iterGroupGo (optimalCount G.length) 0 (sortByRateDesc G)
      (st, out).1 (st, out).2 = (st, out) from h G (List.mem_cons_self G Gs) st out]
    exact ih (fun G' hG' => h G' (List.mem_cons_of_mem G hG'))

theorem foldGroups_state (groups : List (List LearningStrategy))
    (st : List (String × LearningStrategy)) (out : IterOutcome)
    (hnd : (st.map Prod.fst).Nodup)
    (halign : ∀ p ∈ st, p.1 = p.2.id)
    (hmem : ∀ G ∈ groups, ∀ s ∈ G, (s.id, s) ∈ st)
    (hdisj : ((groups.map (fun G => G.map (fun s => s.id))).flatten).Nodup)
    (hnorem : ∀ G ∈ groups, ∀ s ∈ G, ¬ remCond s) :
    (groups.foldl (fun acc group =>
      iterGroupGo (optimalCount group.length) 0 (sortByRateDesc group) acc.1 acc.2)
      (st, out)).1 =
    st.map (fun p => (p.1, replaceById
      ((groups.map (fun G =>
        setFlags (optimalCount G.length) 0 (sortByRateDesc G))).flatten) p.2)) := by
  induction groups generalizing st out with
  | nil =>
    simp only [List.foldl_nil, List.map_nil, List.flatten_nil]
    conv_lhs => rw [← List.map_id st]
    apply List.map_congr_left
    intro p _
    rw [replaceById]
    rfl
  | cons G Gs ih =>
    simp only [List.map_cons, List.flatten_cons, List.nodup_append] at hdisj
    have hGnd : (G.map (fun s => s.id)).Nodup := hdisj.1
    have hsortnd : ((sortByRateDesc G).map (fun s => s.id)).Nodup :=
      (((sortByRateDesc_perm G).map (fun s => s.id)).symm).nodup hGnd
    have hsortmem : ∀ s ∈ sortByRateDesc G, s ∈ G :=
      fun s hs => mem_sortByRateDesc.mp hs
    have hstep : (iterGroupGo (optimalCount G.length) 0 (sortByRateDesc G) st out).1 =
        setEntries st (setFlags (optimalCount G.length) 0 (sortByRateDesc G)) := by
      apply iterGroupGo_no_removal
      · exact hnd
      · exact hsortnd
      · exact fun s hs => hmem G (List.mem_cons_self G Gs) s (hsortmem s hs)
      · exact fun s hs => hnorem G (List.mem_cons_self G Gs) s (hsortmem s hs)
    have hFids : (setFlags (optimalCount G.length) 0 (sortByRateDesc G)).map
        (fun s => s.id) = (sortByRateDesc G).map (fun s => s.id) :=
      setFlags_map_id _ _ _
    have hFhas : ∀ u ∈ setFlags (optimalCount G.length) 0 (sortByRateDesc G),
        mapHas st u.id = true := by
      intro u hu
      have : u.id ∈ (sortByRateDesc G).map (fun s => s.id) := by
        rw [← hFids]
        exact List.mem_map.mpr ⟨u, hu, rfl⟩
      obtain ⟨y, hy, hyi⟩ := List.mem_map.mp this
      rw [mapHas_eq_keys]
      have hmemy := hmem G (List.mem_cons_self G Gs) y (hsortmem y hy)
      exact hyi ▸ List.mem_map.mpr ⟨(y.id, y), hmemy, rfl⟩
    have hFnd : ((setFlags (optimalCount G.length) 0 (sortByRateDesc G)).map
        (fun s => s.id)).Nodup := by
      rw [hFids]
      exact hsortnd
    have hsetE : setEntries st
        (setFlags (optimalCount G.length) 0 (sortByRateDesc G)) =
        st.map (fun p => (p.1, replaceById
          (setFlags (optimalCount G.length) 0 (sortByRateDesc G)) p.2)) :=
      setEntries_eq_map _ st hnd halign hFhas hFnd
    rw [List.foldl_cons]
    have heta : (iterGroupGo (optimalCount G.length) 0 (sortByRateDesc G) st out) =
        ((iterGroupGo (optimalCount G.length) 0 (sortByRateDesc G) st out).1,
         (iterGroupGo (optimalCount G.length) 0 (sortByRateDesc G) st out).2) := rfl
    rw [heta, hstep, hsetE]
    set st1 := st.map (fun p => (p.1, replaceById
      (setFlags (optimalCount G.length) 0 (sortByRateDesc G)) p.2)) with hst1
    have hkeys1 : st1.map Prod.fst = st.map Prod.fst := by
      rw [hst1, List.map_map]
      exact List.map_congr_left (fun p _ => rfl)
    have hnd1 : (st1.map Prod.fst).Nodup := by
      rw [hkeys1]; exact hnd
    have halign1 : ∀ p ∈ st1, p.1 = p.2.id := by
      intro p hp
      rw [hst1] at hp
      obtain ⟨q, hq, hqp⟩ := List.mem_map.mp hp
      rw [← hqp]
      simp only [replaceById_id]
      exact halign q hq
    have hGdisj : ∀ i ∈ G.map (fun s => s.id),
        i ∉ ((Gs.map (fun G => G.map (fun s => s.id))).flatten) :=
      fun i hi => hdisj.2.2 hi
    have hmem1 : ∀ G' ∈ Gs, ∀ s ∈ G', (s.id, s) ∈ st1 := by
      intro G' hG' s hs
      have hsid : s.id ∈ ((Gs.map (fun G => G.map (fun s => s.id))).flatten) := by
        apply List.mem_flatten.mpr
        exact ⟨G'.map (fun s => s.id), List.mem_map.mpr ⟨G', hG', rfl⟩,
          List.mem_map.mpr ⟨s, hs, rfl⟩⟩
      have hsnG : s.id ∉ G.map (fun s => s.id) := by
        intro hc
        exact hGdisj s.id hc hsid
      have hrep : replaceById
          (setFlags (optimalCount G.length) 0 (sortByRateDesc G)) s = s := by
        apply replaceById_of_not_mem
        rw [hFids]
        intro hc
        obtain ⟨y, hy, hyi⟩ := List.mem_map.mp hc
        exact hsnG (List.mem_map.mpr ⟨y, hsortmem y hy, hyi⟩)
      have hm := hmem G' (List.mem_cons_of_mem G hG') s hs
      rw [hst1]
      refine List.mem_map.mpr ⟨(s.id, s), hm, ?_⟩
      simp [hrep]
    have hrec := ih st1 (iterGroupGo (optimalCount G.length) 0
      (sortByRateDesc G) st out).2 hnd1 halign1 hmem1 hdisj.2.1
      (fun G' hG' s hs => hnorem G' (List.mem_cons_of_mem G hG') s hs)
    rw [hrec, hst1, List.map_map]
    apply List.map_congr_left
    intro p hp
    simp only [Function.comp_apply]
    congr 1
    rw [replaceById_comp]
    · rw [List.map_cons, List.flatten_cons]
    · intro i hiF
      rw [hFids] at hiF
      obtain ⟨y, hy, hyi⟩ := List.mem_map.mp hiF
      have hiG : i ∈ G.map (fun s => s.id) :=
        List.mem_map.mpr ⟨y, hsortmem y hy, hyi⟩
      intro hc
      rw [List.map_flatten, List.map_map] at hc
      obtain ⟨ids, hids, hiF'⟩ := List.mem_flatten.mp hc
      obtain ⟨G', hG', hFG'⟩ := List.mem_map.mp hids
      have hiG' : i ∈ G'.map (fun s => s.id) := by
        rw [← hFG'] at hiF'
        simp only [Function.comp_apply] at hiF'
        rw [setFlags_map_id] at hiF'
        obtain ⟨y', hy', hyi'⟩ := List.mem_map.mp hiF'
        exact List.mem_map.mpr ⟨y', mem_sortByRateDesc.mp hy', hyi'⟩
      exact hGdisj i hiG (List.mem_flatten.mpr
        ⟨G'.map (fun s => s.id), List.mem_map.mpr ⟨G', hG', rfl⟩, hiG'⟩)

end ProgramMemory

open ProgramMemory in
theorem iterFixture_run1 : iterateStrategies iterFixture =
    (iterAfter1, ⟨["n1", "n2"], [], ["n3", "n4", "n5", "n6"]⟩) := by
  have c1 : ¬ ((9:ℚ)/10 < 8/10) := by norm_num
  have c2 : ¬ ((9:ℚ)/10 < 5/100) := by norm_num
  have c3 : ¬ ((8:ℚ)/10 < 5/100) := by norm_num
  have c4 : ¬ ((5:ℚ)/100 < 5/100) := by norm_num
  have c5 : ((9:ℚ)/10 > 3/10) := by norm_num
  have c6 : ((8:ℚ)/10 > 3/10) := by norm_num
  have c7 : ¬ ((5:ℚ)/100 > 3/10) := by norm_num
  have c8 : ¬ ((9:ℚ)/10 < 1/10) := by norm_num
  have c9 : ¬ ((8:ℚ)/10 < 1/10) := by norm_num
  have c10 : ((5:ℚ)/100 < 1/10) := by norm_num
  have c11 : ((5:ℚ)/100 < (10:ℚ)⁻¹) := by norm_num
  have c12 : ¬ ((9:ℚ)/10 < (10:ℚ)⁻¹) := by norm_num
  have c13 : ¬ ((8:ℚ)/10 < (10:ℚ)⁻¹) := by norm_num
  simp [iterFixture, iterAfter1, mkEvalStrategy, endpointContent, iterateStrategies,
    iterGroupGo, typesInOrder, sortByRateDesc, insertByRate,
    optimalCount, mapSet, mapDelete, mapHas,
    c1, c2, c3, c4, c5, c6, c7, c8, c9, c10, c11, c12, c13]

open ProgramMemory in
theorem iterAfter1_run2 : iterateStrategies iterAfter1 =
    (iterAfter2, ⟨[], ["n2"], []⟩) := by
  have c1 : ¬ ((9:ℚ)/10 < 8/10) := by norm_num
  have c5 : ((9:ℚ)/10 > 3/10) := by norm_num
  have c6 : ((8:ℚ)/10 > 3/10) := by norm_num
  have c8 : ¬ ((9:ℚ)/10 < 1/10) := by norm_num
  have c9 : ¬ ((8:ℚ)/10 < 1/10) := by norm_num
  have c12 : ¬ ((9:ℚ)/10 < (10:ℚ)⁻¹) := by norm_num
  have c13 : ¬ ((8:ℚ)/10 < (10:ℚ)⁻¹) := by norm_num
  simp [iterAfter1, iterAfter2, mkEvalStrategy, endpointContent, iterateStrategies,
    iterGroupGo, typesInOrder, sortByRateDesc, insertByRate,
    optimalCount, mapSet, mapDelete, mapHas,
    c1, c5, c6, c8, c9, c12, c13]

/-- C7 counterexample: on `iterFixture` — six evaluation strategies, four
of them weak enough for the removal sweep — the first `iterateStrategies`
run removes four strategies and promotes `"n1"` and `"n2"`; the group
having shrunk, the second run (no intervening calls) demotes `"n2"`, so
its demoted set is `["n2"]`, not empty, and the surviving `isOptimal`
flags are not left as the first run set them. -/
theorem programMemory_iterateStrategies_counterexample :
    (iterFixture.iterateStrategies).2 =
      ⟨["n1", "n2"], [], ["n3", "n4", "n5", "n6"]⟩ ∧
    ((iterFixture.iterateStrategies).1.iterateStrategies).2 =
      ⟨[], ["n2"], []⟩ ∧
    ((⟨[], ["n2"], []⟩ : ProgramMemory.IterOutcome) ≠ ⟨[], [], []⟩) := by
  refine ⟨?_, ?_, by decide⟩
  · rw [iterFixture_run1]
  · rw [iterFixture_run1]
    show (ProgramMemory.iterateStrategies iterAfter1).2 = _
    rw [iterAfter1_run2]

/-- C7 amended: `iterateStrategies()` is idempotent on a stable strategy
set provided the first run removes nothing (no strategy has
`successRate < 0.1` with `usageCount > 10`): the second run returns empty
promoted/demoted/removed lists and leaves the whole store — in particular
every `isOptimal` flag — exactly as the first run left it.  (With
removals the claim fails: see the counterexample.) -/
theorem programMemory_iterateStrategies_idempotent
    (pm : ProgramMemory)
    (hnd : (pm.strategies.map Prod.fst).Nodup)
    (halign : ∀ p ∈ pm.strategies, p.1 = p.2.id)
    (hnorem : ∀ p ∈ pm.strategies, ¬ ProgramMemory.remCond p.2) :
    (pm.iterateStrategies).1.iterateStrategies =
      ((pm.iterateStrategies).1, ⟨[], [], []⟩) := by
  open ProgramMemory in
  -- abbreviations
  set vs := pm.strategies.map Prod.snd with hvs
  have hvnd : (vs.map (fun s => s.id)).Nodup := by
    have hkeys : vs.map (fun s => s.id) = pm.strategies.map Prod.fst := by
      rw [hvs, List.map_map]
      exact List.map_congr_left (fun p hp => (halign p hp).symm)
    rw [hkeys]
    exact hnd
  have hvmem : ∀ s ∈ vs, (s.id, s) ∈ pm.strategies := by
    intro s hs
    obtain ⟨p, hp, hps⟩ := List.mem_map.mp hs
    have hpk := halign p hp
    have : p = (s.id, s) := by
      cases p
      simp_all
    exact this ▸ hp
  have hnoremv : ∀ s ∈ vs, ¬ remCond s :=
    fun s hs => hnorem (s.id, s) (hvmem s hs)
  -- run 1 state characterization
  have hdisj1 : ((((typesInOrder vs).map
      (fun t => vs.filter (fun s => s.type = t))).map
      (fun G => G.map (fun s => s.id))).flatten).Nodup := by
    rw [List.map_map]
    exact groups_ids_nodup vs hvnd
  have hrun1 : (pm.iterateStrategies).1.strategies =
      pm.strategies.map (fun p => (p.1, replaceById
        ((((typesInOrder vs).map (fun t => vs.filter (fun s => s.type = t))).map
          (fun G => setFlags (optimalCount G.length) 0 (sortByRateDesc G))).flatten)
        p.2)) := by
    rw [iterateStrategies]
    exact foldGroups_state _ pm.strategies ⟨[], [], []⟩ hnd halign
      (fun G hG s hs => by
        obtain ⟨t, _, rfl⟩ := List.mem_map.mp hG
        exact hvmem s (List.mem_filter.mp hs).1)
      hdisj1
      (fun G hG s hs => by
        obtain ⟨t, _, rfl⟩ := List.mem_map.mp hG
        exact hnoremv s (List.mem_filter.mp hs).1)
  -- run 2 analysis
  set Fall := (((typesInOrder vs).map
      (fun t => vs.filter (fun s => s.type = t))).map
      (fun G => setFlags (optimalCount G.length) 0 (sortByRateDesc G))).flatten
    with hFall
  have hvals2 : (pm.iterateStrategies).1.strategies.map Prod.snd =
      vs.map (replaceById Fall) := by
    rw [hrun1, List.map_map, hvs, List.map_map]
    exact List.map_congr_left (fun p _ => rfl)
  have hφ : ∀ s ∈ vs, ∃ b, replaceById Fall s = { s with isOptimal := b } := by
    intro s hs
    rw [replaceById]
    cases hf : Fall.find? (fun u => u.id = s.id) with
    | none =>
      exact ⟨s.isOptimal, rfl⟩
    | some u =>
      have hu : u ∈ Fall := List.mem_of_find?_eq_some hf
      have huid : u.id = s.id := by simpa using List.find?_some hf
      rw [hFall] at hu
      obtain ⟨Fc, hFc, huF⟩ := List.mem_flatten.mp hu
      obtain ⟨G', hG', hFG⟩ := List.mem_map.mp hFc
      rw [← hFG] at huF
      obtain ⟨y, hy, hyu⟩ := setFlags_flagOnly _ _ _ u huF
      obtain ⟨t, _, rfl⟩ := List.mem_map.mp hG'
      have hyvs : y ∈ vs :=
        (List.mem_filter.mp (mem_sortByRateDesc.mp hy)).1
      have hyid : y.id = s.id := by
        rw [← huid, hyu]
      have hys : y = s := List.inj_on_of_nodup_map hvnd hyvs hs hyid
      rw [hys] at hyu
      exact ⟨u.isOptimal, hyu⟩
  have htypes : ∀ s ∈ vs, (replaceById Fall s).type = s.type := by
    intro s hs
    obtain ⟨b, hb⟩ := hφ s hs
    rw [hb]
  have hrates : ∀ s ∈ vs, (replaceById Fall s).successRate = s.successRate := by
    intro s hs
    obtain ⟨b, hb⟩ := hφ s hs
    rw [hb]
  have husage : ∀ s ∈ vs, (replaceById Fall s).usageCount = s.usageCount := by
    intro s hs
    obtain ⟨b, hb⟩ := hφ s hs
    rw [hb]
  have hnorem2 : ∀ s ∈ vs, ¬ remCond (replaceById Fall s) := by
    intro s hs hc
    apply hnoremv s hs
    rw [remCond] at hc ⊢
    rw [hrates s hs, husage s hs] at hc
    exact hc
  have htypeseq : typesInOrder (vs.map (replaceById Fall)) = typesInOrder vs :=
    typesInOrder_map _ vs htypes
  -- per-group settledness in run 2
  have hgroups2 : ∀ t ∈ typesInOrder vs, ∀ st out,
      iterGroupGo
        (optimalCount ((vs.map (replaceById Fall)).filter
          (fun s => s.type = t)).length) 0
        (sortByRateDesc ((vs.map (replaceById Fall)).filter
          (fun s => s.type = t))) st out = (st, out) := by
    intro t ht st out
    have hGmap : (vs.map (replaceById Fall)).filter (fun s => s.type = t) =
        (vs.filter (fun s => s.type = t)).map (replaceById Fall) :=
      filter_map_type _ vs t htypes
    have hGsub : ∀ x ∈ vs.filter (fun s => s.type = t), x ∈ vs :=
      fun x hx => (List.mem_filter.mp hx).1
    have hsortmap : sortByRateDesc ((vs.filter (fun s => s.type = t)).map
        (replaceById Fall)) =
        (sortByRateDesc (vs.filter (fun s => s.type = t))).map
          (replaceById Fall) :=
      sortByRateDesc_map _ _ (fun x hx => hrates x (hGsub x hx))
    -- the F-components' id lists are globally nodup
    have hFsnd : (((((typesInOrder vs).map
        (fun t => vs.filter (fun s => s.type = t))).map
        (fun G => setFlags (optimalCount G.length) 0 (sortByRateDesc G))).map
        (fun Fc => Fc.map (fun s => s.id))).flatten).Nodup := by
      rw [List.nodup_flatten]
      have hd1 := List.nodup_flatten.mp hdisj1
      constructor
      · intro ids hids
        obtain ⟨Fc, hFc, rfl⟩ := List.mem_map.mp hids
        obtain ⟨G', hG', rfl⟩ := List.mem_map.mp hFc
        rw [setFlags_map_id]
        have hperm := (sortByRateDesc_perm G').map (fun s => s.id)
        exact hperm.symm.nodup (hd1.1 (G'.map (fun s => s.id))
          (List.mem_map.mpr ⟨G', hG', rfl⟩))
      · rw [List.pairwise_map, List.pairwise_map]
        have hp2 := hd1.2
        rw [List.pairwise_map] at hp2
        apply List.Pairwise.imp ?_ hp2
        intro G1 G2 hdis
        intro a ha hb
        rw [setFlags_map_id] at ha hb
        have ha' : a ∈ G1.map (fun s => s.id) :=
          (((sortByRateDesc_perm G1).map (fun s => s.id)).mem_iff).mp ha
        have hb' : a ∈ G2.map (fun s => s.id) :=
          (((sortByRateDesc_perm G2).map (fun s => s.id)).mem_iff).mp hb
        exact hdis ha' hb'
    have hGids : ((vs.filter (fun s => s.type = t)).map (fun s => s.id)).Nodup :=
      (List.Sublist.map (fun s => s.id) (List.filter_sublist vs)).nodup hvnd
    have hsortids : ((sortByRateDesc (vs.filter
        (fun s => s.type = t))).map (fun s => s.id)).Nodup :=
      (((sortByRateDesc_perm _).map (fun s => s.id)).symm).nodup hGids
    have hFmem : setFlags
        (optimalCount (vs.filter (fun s => s.type = t)).length) 0
        (sortByRateDesc (vs.filter (fun s => s.type = t))) ∈
        (((typesInOrder vs).map (fun t => vs.filter (fun s => s.type = t))).map
          (fun G => setFlags (optimalCount G.length) 0 (sortByRateDesc G))) := by
      rw [List.map_map]
      exact List.mem_map.mpr ⟨t, ht, rfl⟩
    have hmapφ : (sortByRateDesc (vs.filter (fun s => s.type = t))).map
        (replaceById Fall) =
        setFlags (optimalCount (vs.filter (fun s => s.type = t)).length) 0
          (sortByRateDesc (vs.filter (fun s => s.type = t))) := by
      have hcong : ∀ s ∈ sortByRateDesc (vs.filter (fun s => s.type = t)),
          replaceById Fall s = replaceById
            (setFlags (optimalCount (vs.filter (fun s => s.type = t)).length) 0
              (sortByRateDesc (vs.filter (fun s => s.type = t)))) s := by
        intro s hs
        rw [hFall]
        apply replaceById_flatten _ _ hFmem hFsnd
        rw [setFlags_map_id]
        exact List.mem_map.mpr ⟨s, hs, rfl⟩
      rw [List.map_congr_left hcong]
      exact map_replaceById_setFlags _ _ _ hsortids
    rw [hGmap, hsortmap, hmapφ, List.length_map]
    apply iterGroupGo_settled
    · exact setFlags_idem _ _ _
    · intro u hu
      obtain ⟨y, hy, hyu⟩ := setFlags_flagOnly _ _ _ u hu
      have hyvs : y ∈ vs := (List.mem_filter.mp (mem_sortByRateDesc.mp hy)).1
      intro hc
      apply hnoremv y hyvs
      rw [remCond] at hc ⊢
      rw [hyu] at hc
      exact hc
  -- assemble: the second run is the identity
  rw [show (pm.iterateStrategies).1.iterateStrategies =
      ({ strategies := (((typesInOrder ((pm.iterateStrategies).1.strategies.map
          Prod.snd)).map (fun t => ((pm.iterateStrategies).1.strategies.map
          Prod.snd).filter (fun s => s.type = t))).foldl
          (fun acc group => iterGroupGo (optimalCount group.length) 0
            (sortByRateDesc group) acc.1 acc.2)
          ((pm.iterateStrategies).1.strategies, ⟨[], [], []⟩)).1 },
        (((typesInOrder ((pm.iterateStrategies).1.strategies.map
          Prod.snd)).map (fun t => ((pm.iterateStrategies).1.strategies.map
          Prod.snd).filter (fun s => s.type = t))).foldl
          (fun acc group => iterGroupGo (optimalCount group.length) 0
            (sortByRateDesc group) acc.1 acc.2)
          ((pm.iterateStrategies).1.strategies, ⟨[], [], []⟩)).2) from rfl]
  rw [hvals2, htypeseq]
  rw [foldl_iterGroup_id]
  · intro G hG st out
    obtain ⟨t, ht, rfl⟩ := List.mem_map.mp hG
    exact hgroups2 t ht st out

theorem programMemory_iterateStrategies_idempotent_witness :
    ((idemFixture.strategies.map Prod.fst).Nodup ∧
      (∀ p ∈ idemFixture.strategies, p.1 = p.2.id) ∧
      (∀ p ∈ idemFixture.strategies, ¬ ProgramMemory.remCond p.2)) ∧
    (idemFixture.iterateStrategies).1.iterateStrategies =
      ((idemFixture.iterateStrategies).1, ⟨[], [], []⟩) :=
  ⟨⟨by decide, by decide,
    by simp [idemFixture, mkEvalStrategy, ProgramMemory.remCond]⟩,
   programMemory_iterateStrategies_idempotent idemFixture (by decide) (by decide)
     (by simp [idemFixture, mkEvalStrategy, ProgramMemory.remCond])⟩

end Resonix
